import Mathlib

/-!
# DP1 file-transfer protocol: server `serve` and client `main`, `recvfile`

A shallow embedding of `serve.c`, `recvfile.c`, the `main` of
`client1_main.c` and the I/O helpers of `sockwrap.c` they call.  System calls are modelled by explicit oracles:

* the incoming side of a connection is a script `Conn` of arrivals
  (`seg bs`: bytes that became available together; `fail e`: the next
  `read`/`recv` call fails with errno `e`); the end of the script is
  end-of-stream;
* the outgoing side is a script `WrOracle` telling how many bytes each
  `write` call accepts, or that it fails; an exhausted script accepts
  everything;
* the file system of the server is a record of oracles, one per system call
  `serve` issues.

Every function returns the list of `Event`s it performed, so that statements
such as "no further read" or "closes the connection" are statements about a
trace.  Bytes are natural numbers below 256; `uint32_t` values are natural
numbers reduced modulo `2^32` where the C code truncates.
-/

namespace DP1

/-! ## Bytes, strings, buffers -/

abbrev Byte := Nat

/-- The constant `BUFFLEN` of `serve.h`. -/
def BUFFLEN : Nat := 64

/-- Size of the `filename` array of `serve`. -/
def FILENAMELEN : Nat := 30

/-- The constant `MAXBUFLEN` of `recvfile.h`. -/
def MAXBUFLEN : Nat := 2048

/-- The literal `"GET "`. -/
def GET_ : List Byte := [71, 69, 84, 32]

/-- The literal `"QUIT"`. -/
def QUIT : List Byte := [81, 85, 73, 84]

/-- The literal `"\r\n"`. -/
def CRLF : List Byte := [13, 10]

/-- The literal `"+OK\r\n"`. -/
def OK_ : List Byte := [43, 79, 75, 13, 10]

/-- The literal `"-ERR\r\n"`. -/
def ERR : List Byte := [45, 69, 82, 82, 13, 10]

/-- The literal `"../"`. -/
def DOTDOTSLASH : List Byte := [46, 46, 47]

/-- The character `'/'`. -/
def SLASH : Byte := 47

/-- The result of `memset(buf, 0, BUFFLEN)`. -/
def zeroBuf : List Byte := List.replicate BUFFLEN 0

/-- Writing `bs` at the start of buffer `buf`, the rest of `buf` unchanged. -/
def store (bs buf : List Byte) : List Byte := bs ++ buf.drop bs.length

/-- The C string held in a buffer: the bytes before the first NUL. -/
def cstr (buf : List Byte) : List Byte := buf.takeWhile (fun b => b != 0)

/-- The test `strncmp(a, b, n) == 0`: the first `n` characters agree, the comparison
stopping at a NUL; reading past the end of a list reads the terminating NUL. -/
def strncmp_eq : Nat → List Byte → List Byte → Bool
  | 0, _, _ => true
  | n + 1, a, b =>
    if a.headD 0 != b.headD 0 then false
    else if a.headD 0 == 0 then true
    else strncmp_eq n a.tail b.tail

/-- The test `strstr(hay, needle) != NULL` on C strings given as byte lists. -/
def strstr : List Byte → List Byte → Bool
  | [], needle => needle.isEmpty
  | c :: hay, needle => needle.isPrefixOf (c :: hay) || strstr hay needle

/-! ## 32-bit integers and byte order -/

/-- Reversal of the four bytes of a 32-bit value. -/
def bswap32 (x : Nat) : Nat :=
  (x % 256) * 2 ^ 24 + (x / 2 ^ 8 % 256) * 2 ^ 16 + (x / 2 ^ 16 % 256) * 2 ^ 8 + x / 2 ^ 24 % 256

/-- The function `htonl` on a host that is little-endian (`le = true`) or big-endian. -/
def htonl (le : Bool) (x : Nat) : Nat := if le then bswap32 x else x % 2 ^ 32

/-- The function `ntohl`: the same conversion as `htonl`. -/
def ntohl (le : Bool) (x : Nat) : Nat := if le then bswap32 x else x % 2 ^ 32

/-- The four bytes a `uint32_t` occupies in memory, lowest address first:
what `writen(fd, &x, 4)` sends. -/
def memBytes32 (le : Bool) (x : Nat) : List Byte :=
  if le then [x % 256, x / 2 ^ 8 % 256, x / 2 ^ 16 % 256, x / 2 ^ 24 % 256]
  else [x / 2 ^ 24 % 256, x / 2 ^ 16 % 256, x / 2 ^ 8 % 256, x % 256]

/-- Big-endian (network order) encoding of a 32-bit value. -/
def be32 (x : Nat) : List Byte :=
  [x / 2 ^ 24 % 256, x / 2 ^ 16 % 256, x / 2 ^ 8 % 256, x % 256]

/-- Conversion of a C `ssize_t`/`int` value to `uint32_t`. -/
def toU32 (r : Int) : Nat := (r % 4294967296).toNat

/-! ## The transport -/

inductive Errno
  | EINTR
  | EWOULDBLOCK
  | EOTHER
  deriving DecidableEq, Repr

/-- One arrival on the incoming side of a connection. -/
inductive RecvEv
  | seg (bs : List Byte)
  | fail (e : Errno)
  deriving DecidableEq, Repr

abbrev Conn := List RecvEv

/-- Result of one `read`/`recv` call: the bytes returned (none at all is
end-of-stream, return value 0) or a failure (return value -1). -/
inductive ReadRes
  | ok (bs : List Byte)
  | err (e : Errno)
  deriving DecidableEq, Repr

/-- One `read(fd, ptr, n)` / `recv(fd, ptr, n, 0)` system call. -/
def sysRead (n : Nat) : Conn → ReadRes × Conn
  | [] => (.ok [], [])
  | .fail e :: rest => (.err e, rest)
  | .seg bs :: rest =>
    if bs = [] then sysRead n rest
    else (.ok (bs.take n), if bs.length ≤ n then rest else .seg (bs.drop n) :: rest)

/-- The bytes a connection script carries, in order. -/
def Conn.bytes : Conn → List Byte
  | [] => []
  | .seg bs :: rest => bs ++ Conn.bytes rest
  | .fail _ :: rest => Conn.bytes rest

/-- A script without failing calls. -/
def Conn.clean : Conn → Bool
  | [] => true
  | .seg _ :: rest => Conn.clean rest
  | .fail _ :: _ => false

/-- Size of a script: an upper bound on the number of system calls that can
return something other than end-of-stream. -/
def Conn.size : Conn → Nat
  | [] => 0
  | .seg bs :: rest => bs.length + 1 + Conn.size rest
  | .fail _ :: rest => 1 + Conn.size rest

/-- How one `write` call behaves: it accepts at most `k + 1` bytes, or fails. -/
inductive WriteEv
  | accept (k : Nat)
  | fail (e : Errno)
  deriving DecidableEq, Repr

abbrev WrOracle := List WriteEv

/-- No `write` call fails for a reason other than a signal. -/
def WrOracle.good (wr : WrOracle) : Prop := ∀ e, WriteEv.fail e ∈ wr → e = Errno.EINTR

structure WritenRes where
  ret : Int
  sent : List Byte
  wr : WrOracle
  deriving DecidableEq, Repr

/-- The loop of `writen`: `left` is what remains to be written, `sent` what
the transport has accepted so far, `n` the count asked for. -/
def writenLoop (n : Nat) : WrOracle → List Byte → List Byte → WritenRes
  | [], left, sent => ⟨n, sent ++ left, []⟩
  | .accept k :: wr, left, sent =>
    if left = [] then ⟨n, sent, .accept k :: wr⟩
    else writenLoop n wr (left.drop (k + 1)) (sent ++ left.take (k + 1))
  | .fail e :: wr, left, sent =>
    if left = [] then ⟨n, sent, .fail e :: wr⟩
    else if e = Errno.EINTR then writenLoop n wr left sent
    else ⟨-1, sent, wr⟩

/-- The function `writen(fd, vptr, n)` of `sockwrap.c` with `vptr` holding `bs`. -/
def writen (wr : WrOracle) (bs : List Byte) : WritenRes :=
  writenLoop bs.length wr bs []

/-! ## Events -/

inductive Event
  | recv (n : Nat) (r : ReadRes)
  | writen (req : List Byte) (ret : Int)
  | access (name : List Byte) (ok : Bool)
  | stat (name : List Byte) (r : Option Nat)
  | fopen (name : List Byte) (ok : Bool)
  | sendfile (name : List Byte) (count : Nat) (ret : Int)
  | fclose
  | close
  | undefined
  | nofuel
  deriving DecidableEq, Repr

/-- The event is a read on the connection. -/
def Event.isRecv : Event → Bool
  | .recv _ _ => true
  | _ => false

/-- The event is a write on the connection (`writen` or `sendfile`). -/
def Event.isSend : Event → Bool
  | .writen _ _ => true
  | .sendfile _ _ _ => true
  | _ => false

/-- The event is an existence check, a `stat` or an open of a file. -/
def Event.isFileOp : Event → Bool
  | .access _ _ => true
  | .stat _ _ => true
  | .fopen _ _ => true
  | .sendfile _ _ _ => true
  | _ => false

/-- The buffers handed to `writen`, in order. -/
def writtenBufs : List Event → List (List Byte)
  | [] => []
  | .writen req _ :: t => req :: writtenBufs t
  | _ :: t => writtenBufs t

/-! ## `serve.c` -/

/-- The server's file system, one oracle per system call: `access(f, R_OK)`,
the `stat` inside `get_file_size` (its `st_size`, or failure), the `stat`
inside `get_file_timestamp` (its `st_mtime`, or failure), `fopen(f, "r")`,
and the return value of `sendfile` for a file and a count. -/
structure Env where
  littleEndian : Bool
  access : List Byte → Bool
  statSize : List Byte → Option Nat
  statMtime : List Byte → Option Nat
  fopen : List Byte → Bool
  sendfile : List Byte → Nat → Int

/-- The function `get_file_size`: `unsigned`, `-1` converted when `stat` fails. -/
def get_file_size (env : Env) (name : List Byte) : Nat :=
  match env.statSize name with
  | none => toU32 (-1)
  | some sz => sz % 2 ^ 32

/-- The function `get_file_timestamp`: `unsigned`, `-1` converted when `stat` fails. -/
def get_file_timestamp (env : Env) (name : List Byte) : Nat :=
  match env.statMtime name with
  | none => toU32 (-1)
  | some t => t % 2 ^ 32

/-- The function `Readn_timeo(fd, ptr, nbytes, host)`: one `read` call; returns its return
value, the bytes placed in `ptr`, and the rest of the script. -/
def Readn_timeo (conn : Conn) (nbytes : Nat) : Int × List Byte × Conn :=
  match sysRead nbytes conn with
  | (.ok bs, c) => ((bs.length : Int), bs, c)
  | (.err _, c) => (-1, [], c)

structure LineRes where
  ret : Int
  buf : List Byte
  conn : Conn
  events : List Event

/-- The `for` loop of `readline_unbuffered`: `k` iterations remain
(`maxlen - n`), `acc` is what has been stored through `ptr`. -/
def readlineLoop : Nat → Nat → Conn → List Byte → List Event → LineRes
  | 0, n, conn, acc, evs => ⟨n, acc ++ [0], conn, evs⟩
  | k + 1, n, conn, acc, evs =>
    match sysRead 1 conn with
    | (.ok (c :: r), conn1) =>
      if c = 10 then ⟨n, acc ++ [c] ++ [0], conn1, evs ++ [.recv 1 (.ok (c :: r))]⟩
      else readlineLoop k (n + 1) conn1 (acc ++ [c]) (evs ++ [.recv 1 (.ok (c :: r))])
    | (.ok [], conn1) =>
      if n = 1 then ⟨0, acc, conn1, evs ++ [.recv 1 (.ok [])]⟩
      else ⟨n, acc ++ [0], conn1, evs ++ [.recv 1 (.ok [])]⟩
    | (.err e, conn1) => ⟨-1, acc, conn1, evs ++ [.recv 1 (.err e)]⟩

/-- The function `readline_unbuffered(fd, vptr, maxlen)` of `sockwrap.c`. -/
def readline_unbuffered (conn : Conn) (maxlen : Nat) : LineRes :=
  readlineLoop (maxlen - 1) 1 conn [] []

/-- How one iteration of the `while (1)` of `serve` ends. -/
inductive Next
  | again (conn : Conn) (wr : WrOracle)
  | brk
  | ret
  | undef

/-- The recurring error exit: `writen(connfd, "-ERR\r\n", 6)` then `break`. -/
def errReply (wr : WrOracle) : List Event × Next :=
  ([.writen ERR (writen wr ERR).ret], .brk)

/-- The part of `serve` after `access` succeeded (lines 115-193). -/
def serveFile (env : Env) (filename : List Byte) (conn : Conn) (wr : WrOracle) :
    List Event × Next :=
  let dimension := get_file_size env filename
  let ev1 := [Event.access filename true, Event.stat filename (env.statSize filename)]
  if dimension < 0 then
    (ev1 ++ (errReply wr).1, .brk)
  else
    let timestamp := get_file_timestamp env filename
    let ev2 := ev1 ++ [Event.stat filename (env.statMtime filename)]
    if timestamp < 0 then
      (ev2 ++ (errReply wr).1, .brk)
    else
      let dimension := htonl env.littleEndian dimension
      let timestamp := htonl env.littleEndian timestamp
      let ev3 := ev2 ++ [Event.fopen filename (env.fopen filename)]
      if env.fopen filename = false then
        (ev3 ++ (errReply wr).1, .brk)
      else
        let w1 := writen wr OK_
        let ev4 := ev3 ++ [Event.writen OK_ w1.ret]
        if w1.ret ≠ 5 then (ev4, .brk)
        else
          let w2 := writen w1.wr (memBytes32 env.littleEndian dimension)
          let ev5 := ev4 ++ [Event.writen (memBytes32 env.littleEndian dimension) w2.ret]
          if w2.ret ≠ 4 then (ev5, .brk)
          else
            let w3 := writen w2.wr (memBytes32 env.littleEndian timestamp)
            let ev6 := ev5 ++ [Event.writen (memBytes32 env.littleEndian timestamp) w3.ret]
            if w3.ret ≠ 4 then (ev6, .brk)
            else
              let count := ntohl env.littleEndian dimension
              let r := env.sendfile filename count
              let bytesent := toU32 r
              let ev7 := ev6 ++ [Event.sendfile filename count r, Event.fclose]
              if bytesent = count then (ev7, .again conn w3.wr)
              else if bytesent < count then (ev7 ++ [Event.close], .ret)
              else (ev7, .again conn w3.wr)

/-- The `"GET "` branch of `serve` (lines 59-213). -/
def serveGet (env : Env) (conn : Conn) (wr : WrOracle) : List Event × Next :=
  let l := readline_unbuffered conn BUFFLEN
  let buf := store l.buf zeroBuf
  if l.ret < 0 then
    (l.events ++ (errReply wr).1, .brk)
  else if l.ret < 2 then
    -- `buf[filenamelenght - 2]` is read outside `buf`
    (l.events, .undef)
  else
    let len := l.ret.toNat
    if buf.getD (len - 2) 0 = 13 ∧ buf.getD (len - 1) 0 = 10 then
      let buf := buf.set (len - 2) 0
      if FILENAMELEN < (cstr buf).length + 1 then
        -- `strcpy(filename, buf)` writes past the 30 bytes of `filename`
        (l.events, .undef)
      else
        let filename := cstr buf
        if strstr filename DOTDOTSLASH then
          (l.events ++ (errReply wr).1, .brk)
        else if env.access filename then
          let r := serveFile env filename l.conn wr
          (l.events ++ r.1, r.2)
        else
          (l.events ++ [Event.access filename false] ++ (errReply wr).1, .brk)
    else
      (l.events ++ (errReply wr).1, .brk)

/-- The `"QUIT"` branch of `serve` (lines 215-238). -/
def serveQuit (conn : Conn) (wr : WrOracle) : List Event × Next :=
  let r := Readn_timeo conn 2
  let ev := [Event.recv 2 (sysRead 2 conn).1]
  if r.1 < 0 then (ev, .brk)
  else
    let buf := store r.2.1 zeroBuf
    if strncmp_eq 2 buf CRLF then (ev, .brk)
    else (ev ++ (errReply wr).1, .brk)

/-- One iteration of the `while (1)` of `serve`. -/
def serveBody (env : Env) (conn : Conn) (wr : WrOracle) : List Event × Next :=
  let r := Readn_timeo conn 4
  let ev := [Event.recv 4 (sysRead 4 conn).1]
  if r.1 < 0 then (ev, .brk)
  else
    let buf := store r.2.1 zeroBuf
    if strncmp_eq 4 buf GET_ then
      let g := serveGet env r.2.2 wr
      (ev ++ g.1, g.2)
    else if strncmp_eq 4 buf QUIT then
      let q := serveQuit r.2.2 wr
      (ev ++ q.1, q.2)
    else
      (ev ++ (errReply wr).1, .brk)

/-- The `while (1)` of `serve` followed by the final `Close(connfd)`. -/
def serveLoop (env : Env) : Nat → Conn → WrOracle → List Event
  | 0, _, _ => [.nofuel]
  | k + 1, conn, wr =>
    match serveBody env conn wr with
    | (evs, .again conn1 wr1) => evs ++ serveLoop env k conn1 wr1
    | (evs, .brk) => evs ++ [.close]
    | (evs, .ret) => evs
    | (evs, .undef) => evs ++ [.undefined]

/-- The function `serve(connfd, host)`: the trace of what it does on the connection and
the file system. Every iteration that loops consumed bytes of the script, so
`conn.size + 1` iterations are never exhausted. -/
def serve (env : Env) (conn : Conn) (wr : WrOracle) : List Event :=
  serveLoop env (conn.size + 1) conn wr

/-! ## `recvfile.c` -/

/-- What the client does on the connection and on its local files. -/
inductive CEvent
  | fopen (name : List Byte) (ok : Bool)
  | recv (n : Nat) (r : ReadRes)
  | fwrite (bs : List Byte)
  | progress (received : Nat)
  | fclose
  | remove (name : List Byte)
  deriving DecidableEq, Repr

/-- The event is a read on the connection. -/
def CEvent.isRecv : CEvent → Bool
  | .recv _ _ => true
  | _ => false

/-- How a client function ends: it returns a value, it terminates the process
(`err_sys`, `err_quit`), or its behaviour is undefined. -/
inductive Outcome
  | ret (v : Nat)
  | exit
  | undef
  | nofuel
  deriving DecidableEq, Repr

structure RecvRes where
  out : Outcome
  conn : Conn
  events : List CEvent
  deriving DecidableEq, Repr

/-- The wrapper `Read(fd, bufptr, nbytes)` of `sockwrap.c`: `read`, called again while it
fails with `EINTR`; any other failure ends the process (`none`). The calls are
those of `sysRead`, see `Read_eq_sysRead`. -/
def Read (n : Nat) : Conn → Option (List Byte) × Conn × List CEvent
  | [] => (some [], [], [.recv n (.ok [])])
  | .fail e :: rest =>
    if e = Errno.EINTR then
      ((Read n rest).1, (Read n rest).2.1, .recv n (.err e) :: (Read n rest).2.2)
    else (none, rest, [.recv n (.err e)])
  | .seg bs :: rest =>
    if bs = [] then Read n rest
    else (some (bs.take n), (if bs.length ≤ n then rest else .seg (bs.drop n) :: rest),
      [.recv n (.ok (bs.take n))])

/-- The function `strrchr(s, c)`: the suffix of `s` starting at the last occurrence of `c`. -/
def strrchr (c : Byte) : List Byte → Option (List Byte)
  | [] => none
  | x :: t =>
    match strrchr c t with
    | some r => some r
    | none => if x = c then some (x :: t) else none

/-- The name `recvfile` opens: lines 28-33 of `recvfile.c`. -/
def localName (filename : List Byte) : List Byte :=
  if strstr filename [SLASH] then
    match strrchr SLASH filename with
    | some r => r.tail
    | none => filename
  else filename

/-- The receive loop of `recvfile` (lines 47-76) and its `return`; `remain_data`
is a `uint32_t`. -/
def recvLoop (dim : Nat) : Nat → Nat → Conn → RecvRes
  | 0, _, conn => ⟨.nofuel, conn, []⟩
  | k + 1, remain_data, conn =>
    match Read MAXBUFLEN conn with
    | (none, c, evs) => ⟨.exit, c, evs⟩
    | (some bs, c, evs) =>
      if 0 < bs.length then
        let remain_data := (remain_data + 2 ^ 32 - bs.length) % 2 ^ 32
        let received := (dim + 2 ^ 32 - remain_data) % 2 ^ 32
        if dim = 0 then
          -- the progress line divides by `dim`
          ⟨.undef, c, evs ++ [.fwrite bs]⟩
        else if remain_data ≤ 0 then
          ⟨.ret received, c, evs ++ [.fwrite bs, .progress received, .fclose]⟩
        else
          ⟨(recvLoop dim k remain_data c).out, (recvLoop dim k remain_data c).conn,
            evs ++ [.fwrite bs, .progress received] ++ (recvLoop dim k remain_data c).events⟩
      else ⟨.ret ((dim + 2 ^ 32 - remain_data) % 2 ^ 32), c, evs⟩

/-- The function `recvfile(s, filename, dim, buf, timestamp)`; `canOpen` tells whether
`fopen(name, "w")` succeeds. Every iteration that loops consumed bytes of the
script, so `conn.size + 1` iterations are never exhausted. -/
def recvfile (canOpen : List Byte → Bool) (conn : Conn) (filename : List Byte) (dim : Nat) :
    RecvRes :=
  if canOpen (localName filename) then
    ⟨(recvLoop dim (conn.size + 1) dim conn).out, (recvLoop dim (conn.size + 1) dim conn).conn,
      .fopen (localName filename) true :: (recvLoop dim (conn.size + 1) dim conn).events⟩
  else ⟨.exit, conn, [.fopen (localName filename) false]⟩

/-- The wrapper `Recvfile(s, filename, dim, buf, timestamp)`: both `err_quit` calls end the
process. -/
def Recvfile (canOpen : List Byte → Bool) (conn : Conn) (filename : List Byte) (dim : Nat) :
    RecvRes :=
  match (recvfile canOpen conn filename dim).out with
  | .ret received =>
    if received < dim then
      ⟨.exit, (recvfile canOpen conn filename dim).conn,
        (recvfile canOpen conn filename dim).events ++ [.remove filename]⟩
    else recvfile canOpen conn filename dim
  | _ => recvfile canOpen conn filename dim

/-- The client's local files: path and content. -/
abbrev LocalFS := List (List Byte × List Byte)

/-- The path names a file. -/
def LocalFS.has (fs : LocalFS) (name : List Byte) : Bool := fs.any (fun p => p.1 == name)

/-- The effect of a trace on the local files; `cur` is the file open for
writing. `fopen(name, "w")` creates or truncates, `remove` unlinks. -/
def applyEvents : LocalFS → Option (List Byte) → List CEvent → LocalFS
  | fs, _, [] => fs
  | fs, _, .fopen name true :: t =>
    applyEvents ((name, []) :: fs.filter (fun p => p.1 != name)) (some name) t
  | fs, some cur, .fwrite bs :: t =>
    applyEvents (fs.map (fun p => if p.1 = cur then (p.1, p.2 ++ bs) else p)) (some cur) t
  | fs, cur, .remove name :: t => applyEvents (fs.filter (fun p => p.1 != name)) cur t
  | fs, cur, _ :: t => applyEvents fs cur t

/-! ## Auxiliary definitions for the statements -/

/-- The recv events of reading the bytes `l` one at a time. -/
def recvEach (l : List Byte) : List Event := l.map (fun b => Event.recv 1 (.ok [b]))

/-- The value with bytes `d c b a`, most significant first. -/
def ofBytes (d c b a : Nat) : Nat := a + 256 * b + 65536 * c + 16777216 * d

/-- A server whose only file is `a` (11 bytes, modified at 1700000000), on a
little-endian host, with a `sendfile` that moves what the file holds. -/
def envA : Env where
  littleEndian := true
  access := fun f => f == [97]
  statSize := fun f => if f == [97] then some 11 else none
  statMtime := fun f => if f == [97] then some 1700000000 else none
  fopen := fun f => f == [97]
  sendfile := fun _ count => ((min count 11 : Nat) : Int)

/-- The server of `envA` when the `stat` inside `get_file_size` fails. -/
def envStatSizeFails : Env := { envA with statSize := fun _ => none }

/-- The server of `envA` when the `stat` inside `get_file_timestamp` fails. -/
def envStatMtimeFails : Env := { envA with statMtime := fun _ => none }

/-- The server of `envA` when `sendfile` fails (returns -1). -/
def envSendfileFails : Env := { envA with sendfile := fun _ _ => -1 }

/-! ## `readn` and `Readn` of `sockwrap.c` -/

/-- The bytes a script supplies before end-of-stream or the first read error
other than `EINTR`. -/
def Conn.avail : Conn → List Byte
  | [] => []
  | .seg bs :: rest => bs ++ Conn.avail rest
  | .fail e :: rest => if e = Errno.EINTR then Conn.avail rest else []

/-- The script ends its supply with a read error other than `EINTR`, not with
end-of-stream. -/
def Conn.broken : Conn → Bool
  | [] => false
  | .seg _ :: rest => Conn.broken rest
  | .fail e :: rest => if e = Errno.EINTR then Conn.broken rest else true

structure ReadnRes where
  ret : Int
  buf : List Byte
  conn : Conn
  deriving DecidableEq, Repr

/-- The loop of `readn` and its `return n - nleft`: `nleft` bytes remain to be
read, `acc` is what has been stored through `ptr`. `INTERRUPTED_BY_SIGNAL`
is `errno == EINTR`. The `read` calls are those of `sysRead`, see
`readnLoop_eq_sysRead`. -/
def readnLoop (n : Nat) : Conn → Nat → List Byte → ReadnRes
  | [], nleft, acc => ⟨((n - nleft : Nat) : Int), acc, []⟩
  | .fail e :: rest, nleft, acc =>
    if nleft = 0 then ⟨((n - nleft : Nat) : Int), acc, .fail e :: rest⟩
    else if e = Errno.EINTR then readnLoop n rest nleft acc
    else ⟨-1, acc, rest⟩
  | .seg bs :: rest, nleft, acc =>
    if nleft = 0 then ⟨((n - nleft : Nat) : Int), acc, .seg bs :: rest⟩
    else if bs = [] then readnLoop n rest nleft acc
    else if bs.length ≤ nleft then readnLoop n rest (nleft - bs.length) (acc ++ bs)
    else ⟨((n - 0 : Nat) : Int), acc ++ bs.take nleft, .seg (bs.drop nleft) :: rest⟩

/-- The function `readn(fd, vptr, n)` of `sockwrap.c`. -/
def readn (conn : Conn) (n : Nat) : ReadnRes := readnLoop n conn n []

/-- The wrapper `Readn(fd, ptr, nbytes)` of `sockwrap.c`: `none` when `err_quit`
ends the process. -/
def Readn (conn : Conn) (nbytes : Nat) : Option ReadnRes :=
  if (readn conn nbytes).ret < 0 then none else some (readn conn nbytes)

/-! ## Trace shapes -/

/-- The event is neither a close of the connection nor a `writen` of the error
reply `"-ERR\r\n"`. -/
def Event.quiet : Event → Bool
  | .close => false
  | .writen req _ => req != ERR
  | _ => true

/-- What one iteration of `serve` may leave in the trace, by the way it ends: an
iteration that loops, or is undefined, closes nothing and writes no error
reply; `Close; return` ends with the only close; a `break` writes at most an
error reply, as its last event. -/
def BodyShape : List Event → Next → Prop
  | evs, .again _ _ => ∀ e ∈ evs, e.quiet = true
  | evs, .undef => ∀ e ∈ evs, e.quiet = true
  | evs, .ret => ∃ pre, evs = pre ++ [.close] ∧ ∀ e ∈ pre, e.quiet = true
  | evs, .brk =>
    (∀ e ∈ evs, e.quiet = true) ∨
      ∃ pre r, evs = pre ++ [.writen ERR r] ∧ ∀ e ∈ pre, e.quiet = true

/-! ## `client1_main.c` -/

/-- The literal `"-ERR\r"`, the first five bytes of the error reply. -/
def ERR5 : List Byte := [45, 69, 82, 82, 13]

/-- The value of a `uint32_t` whose four bytes in memory, lowest address
first, are `m`. -/
def ofMem32 (le : Bool) (m : List Byte) : Nat :=
  if le then m.getD 0 0 + 256 * m.getD 1 0 + 65536 * m.getD 2 0 + 16777216 * m.getD 3 0
  else 16777216 * m.getD 0 0 + 65536 * m.getD 1 0 + 256 * m.getD 2 0 + m.getD 3 0

/-- The client's host: its byte order, whether `fopen(name, "w")` succeeds, and
the indeterminate initial contents of the locals `dimension`, `timestamp` and
`c` of `main`. -/
structure ClientEnv where
  littleEndian : Bool
  canOpen : List Byte → Bool
  dimension0 : Nat
  timestamp0 : Nat
  c0 : Byte

/-- What the client's `main` does: writes and exact reads on the connection,
the events of `Recvfile`, the close of the connection and the way the process
ends (`exit(status)`, or `err_quit`/`err_sys`). -/
inductive MEvent
  | writen (req : List Byte) (ret : Int)
  | readn (n : Nat) (ret : Int)
  | file (e : CEvent)
  | close
  | exit (status : Int)
  | fatal
  | undefined
  | nofuel
  deriving DecidableEq, Repr

/-- The buffers handed to `Writen` by the client, in order. -/
def mWritten : List MEvent → List (List Byte)
  | [] => []
  | .writen req _ :: t => req :: mWritten t
  | _ :: t => mWritten t

/-- The command `main` builds in `buf` for the argument `name`. -/
def getCommand (name : List Byte) : List Byte := GET_ ++ cstr name ++ CRLF

/-- The `for` loop of `main` over the filename arguments (lines 90-157) and
what follows it (lines 159-172); `dimension` and `timestamp` are the current
contents of the two locals. -/
def clientLoop (env : ClientEnv) :
    List (List Byte) → Conn → WrOracle → Nat → Nat → List MEvent
  | [], _, wr, _, _ =>
    [.writen (QUIT ++ CRLF) (writen wr (QUIT ++ CRLF)).ret, .close, .exit 0]
  | name :: rest, conn, wr, dimension, timestamp =>
    if MAXBUFLEN < (getCommand name).length + 1 then
      -- `strncat` writes past the 2048 bytes of `buf`
      [.undefined]
    else
      match Readn conn 5 with
      | none =>
        [.writen (getCommand name) (writen wr (getCommand name)).ret, .readn 5 (-1), .fatal]
      | some r1 =>
        if strncmp_eq 5 (store r1.buf (getCommand name)) OK_ then
          match Readn r1.conn 4 with
          | none =>
            [.writen (getCommand name) (writen wr (getCommand name)).ret, .readn 5 r1.ret,
              .readn 4 (-1), .fatal]
          | some r2 =>
            match Readn r2.conn 4 with
            | none =>
              [.writen (getCommand name) (writen wr (getCommand name)).ret, .readn 5 r1.ret,
                .readn 4 r2.ret, .readn 4 (-1), .fatal]
            | some r3 =>
              match (Recvfile env.canOpen r3.conn (cstr name)
                  (ntohl env.littleEndian (ofMem32 env.littleEndian
                    (store r2.buf (memBytes32 env.littleEndian dimension))))).out with
              | .ret _ =>
                [.writen (getCommand name) (writen wr (getCommand name)).ret, .readn 5 r1.ret,
                    .readn 4 r2.ret, .readn 4 r3.ret] ++
                  (Recvfile env.canOpen r3.conn (cstr name)
                    (ntohl env.littleEndian (ofMem32 env.littleEndian
                      (store r2.buf (memBytes32 env.littleEndian dimension))))).events.map .file ++
                  clientLoop env rest
                    (Recvfile env.canOpen r3.conn (cstr name)
                      (ntohl env.littleEndian (ofMem32 env.littleEndian
                        (store r2.buf (memBytes32 env.littleEndian dimension))))).conn
                    (writen wr (getCommand name)).wr
                    (ntohl env.littleEndian (ofMem32 env.littleEndian
                      (store r2.buf (memBytes32 env.littleEndian dimension))))
                    (ntohl env.littleEndian (ofMem32 env.littleEndian
                      (store r3.buf (memBytes32 env.littleEndian timestamp))))
              | o =>
                [.writen (getCommand name) (writen wr (getCommand name)).ret, .readn 5 r1.ret,
                    .readn 4 r2.ret, .readn 4 r3.ret] ++
                  (Recvfile env.canOpen r3.conn (cstr name)
                    (ntohl env.littleEndian (ofMem32 env.littleEndian
                      (store r2.buf (memBytes32 env.littleEndian dimension))))).events.map .file ++
                  [match o with
                    | .undef => .undefined
                    | .nofuel => .nofuel
                    | _ => .fatal]
        else if strncmp_eq 5 (store r1.buf (getCommand name)) ERR5 then
          match Readn r1.conn 1 with
          | none =>
            [.writen (getCommand name) (writen wr (getCommand name)).ret, .readn 5 r1.ret,
              .readn 1 (-1), .fatal]
          | some r2 =>
            if (store r2.buf [env.c0]).headD 0 = 10 then
              [.writen (getCommand name) (writen wr (getCommand name)).ret, .readn 5 r1.ret,
                .readn 1 r2.ret, .close, .exit (-1)]
            else
              [.writen (getCommand name) (writen wr (getCommand name)).ret, .readn 5 r1.ret,
                  .readn 1 r2.ret] ++
                clientLoop env rest r2.conn (writen wr (getCommand name)).wr dimension timestamp
        else if strncmp_eq 5 (store r1.buf (getCommand name)) ERR5 = false ∧
            strncmp_eq 5 (store r1.buf (getCommand name)) OK_ = false then
          [.writen (getCommand name) (writen wr (getCommand name)).ret, .readn 5 r1.ret,
            .close, .exit (-1)]
        else
          [.writen (getCommand name) (writen wr (getCommand name)).ret, .readn 5 r1.ret] ++
            clientLoop env rest r1.conn (writen wr (getCommand name)).wr dimension timestamp

/-- The function `main` of `client1_main.c` from the point where the
connection is established; `files` are `argv[3]`, `argv[4]`, ...: without any,
`main` has ended with the usage message. -/
def client1_main (env : ClientEnv) (files : List (List Byte)) (conn : Conn) (wr : WrOracle) :
    List MEvent :=
  if files = [] then [.fatal]
  else clientLoop env files conn wr env.dimension0 env.timestamp0

/-- A little-endian client that can create every file. -/
def envC : ClientEnv where
  littleEndian := true
  canOpen := fun _ => true
  dimension0 := 0
  timestamp0 := 0
  c0 := 0

/-- Neither a close of the connection, nor an `exit`, nor a `Writen` of
`"QUIT\r\n"`. -/
def MEvent.calm : MEvent → Bool
  | .close => false
  | .exit _ => false
  | .writen req _ => req != QUIT ++ CRLF
  | _ => true

/-- The ways a run of the client ends, after events that neither close the
connection nor write `"QUIT\r\n"`: normal completion; abort on a reply; the
process ended by `err_quit`/`err_sys`; undefined behaviour. -/
def ClientShape (t : List MEvent) : Prop :=
  ∃ pre tl, t = pre ++ tl ∧ (∀ e ∈ pre, e.calm = true) ∧
    ((∃ r, tl = [.writen (QUIT ++ CRLF) r, .close, .exit 0]) ∨ tl = [.close, .exit (-1)] ∨
      tl = [.fatal] ∨ tl = [.undefined] ∨ tl = [.nofuel])

/-- The commands the client has written follow the arguments in order: they
are the commands of the first `k` filenames, or those of all the filenames
followed by `"QUIT\r\n"`. -/
def InArgumentOrder (files : List (List Byte)) (t : List MEvent) : Prop :=
  (∃ k, k ≤ files.length ∧ mWritten t = (files.take k).map getCommand) ∨
    mWritten t = files.map getCommand ++ [QUIT ++ CRLF]

/-! ## Filename extraction, local names and the peer address -/

/-- The content of `filename` after line 89 of `serve.c`, when `serve` gets
there: the line read by `readline_unbuffered` ends in CR LF, the CR is
replaced by a NUL and the C string in `buf` is copied. It is `none` when the
line is rejected or when `serve` is undefined before that point. -/
def extractFilename (conn : Conn) : Option (List Byte) :=
  if (readline_unbuffered conn BUFFLEN).ret < 2 then none
  else if (store (readline_unbuffered conn BUFFLEN).buf zeroBuf).getD
        ((readline_unbuffered conn BUFFLEN).ret.toNat - 2) 0 = 13 ∧
      (store (readline_unbuffered conn BUFFLEN).buf zeroBuf).getD
        ((readline_unbuffered conn BUFFLEN).ret.toNat - 1) 0 = 10 then
    if FILENAMELEN <
        (cstr ((store (readline_unbuffered conn BUFFLEN).buf zeroBuf).set
          ((readline_unbuffered conn BUFFLEN).ret.toNat - 2) 0)).length + 1 then none
    else some (cstr ((store (readline_unbuffered conn BUFFLEN).buf zeroBuf).set
      ((readline_unbuffered conn BUFFLEN).ret.toNat - 2) 0))
  else none

/-- The literal `"::ffff:"`. -/
def MAPPED : List Byte := [58, 58, 102, 102, 102, 102, 58]

/-- The offset of the first occurrence found by `strstr(hay, needle)`, when
there is one. -/
def strstrAt : List Byte → List Byte → Option Nat
  | [], needle => if needle.isEmpty then some 0 else none
  | c :: hay, needle =>
    if needle.isPrefixOf (c :: hay) then some 0
    else
      match strstrAt hay needle with
      | some i => some (i + 1)
      | none => none

/-- Lines 31-37 of `serve.c`: the string `host` points to afterwards, `mem`
being the content of the array `host` points into at the start. With an
occurrence of `"::ffff:"` at offset `i`: `host[0] = 0`, `host = hostipv4 + 7`,
then `memset(hostipv4, 0, strlen(hostipv4))`. -/
def translateHost (mem : List Byte) : List Byte :=
  match strstrAt (cstr mem) MAPPED with
  | none => cstr mem
  | some i =>
    cstr (((mem.set 0 0).take i ++ List.replicate (cstr ((mem.set 0 0).drop i)).length 0 ++
      (mem.set 0 0).drop (i + (cstr ((mem.set 0 0).drop i)).length)).drop (i + 7))

/-- The server of `envA` with a readable file `/etc/passwd` outside its
working directory. -/
def envRoot : Env :=
  { envA with
    access := fun f => f == [47, 101, 116, 99, 47, 112, 97, 115, 115, 119, 100]
    fopen := fun f => f == [47, 101, 116, 99, 47, 112, 97, 115, 115, 119, 100]
    statSize := fun _ => some 11
    statMtime := fun _ => some 1700000000 }

/-- The server of `envA` when a readable file named `../a` exists as well. -/
def envDotDot : Env :=
  { envA with
    access := fun f => f == [97] || f == [46, 46, 47, 97]
    fopen := fun f => f == [97] || f == [46, 46, 47, 97]
    statSize := fun _ => some 11
    statMtime := fun _ => some 1700000000 }

/-! ## Theorems -/

theorem writenLoop_good (n : Nat) (wr : WrOracle) (h : wr.good) (left sent : List Byte) :
    (writenLoop n wr left sent).ret = n ∧ (writenLoop n wr left sent).sent = sent ++ left ∧
      (writenLoop n wr left sent).wr.good := by
  induction wr generalizing left sent with
  | nil => simp [writenLoop, WrOracle.good]
  | cons ev wr ih =>
    have hg : WrOracle.good wr := fun e he => h e (List.mem_cons_of_mem _ he)
    cases ev with
    | accept k =>
      by_cases hl : left = []
      · simp [writenLoop, hl, h]
      · simp only [writenLoop, hl, if_false]
        obtain ⟨h1, h2, h3⟩ := ih hg (left.drop (k + 1)) (sent ++ left.take (k + 1))
        refine ⟨h1, ?_, h3⟩
        rw [h2, List.append_assoc, List.take_append_drop]
    | fail e =>
      have he : e = Errno.EINTR := h e (List.mem_cons_self _ _)
      by_cases hl : left = []
      · simp [writenLoop, hl, h]
      · simp only [writenLoop, hl, if_false, he, if_true]
        exact ih hg left sent

theorem writen_good (wr : WrOracle) (h : wr.good) (bs : List Byte) :
    (writen wr bs).ret = bs.length ∧ (writen wr bs).sent = bs ∧ (writen wr bs).wr.good := by
  simpa [writen] using writenLoop_good bs.length wr h bs []

theorem sysRead_clean (n : Nat) (conn : Conn) (h : conn.clean = true) :
    ∃ bs c, sysRead n conn = (.ok bs, c) ∧ c.clean = true ∧ conn.bytes = bs ++ c.bytes ∧
      bs.length ≤ n ∧ (bs = [] → n = 0 ∨ conn.bytes = []) := by
  induction conn with
  | nil => exact ⟨[], [], rfl, rfl, rfl, Nat.zero_le _, fun _ => Or.inr rfl⟩
  | cons ev rest ih =>
    cases ev with
    | fail e => simp [Conn.clean] at h
    | seg s =>
      have hr : Conn.clean rest = true := by simpa [Conn.clean] using h
      by_cases hs : s = []
      · obtain ⟨bs, c, h1, h2, h3, h4, h5⟩ := ih hr
        refine ⟨bs, c, ?_, h2, ?_, h4, ?_⟩
        · simp [sysRead, hs, h1]
        · simp [Conn.bytes, hs, h3]
        · intro hb
          simpa [Conn.bytes, hs] using h5 hb
      · by_cases hn : s.length ≤ n
        · refine ⟨s.take n, rest, ?_, hr, ?_, ?_, ?_⟩
          · simp [sysRead, hs, hn]
          · simp [Conn.bytes, List.take_of_length_le hn]
          · simp
          · intro hb
            left
            have : s.take n = s := List.take_of_length_le hn
            rw [this] at hb
            exact absurd hb hs
        · refine ⟨s.take n, .seg (s.drop n) :: rest, ?_, ?_, ?_, ?_, ?_⟩
          · simp [sysRead, hs, hn]
          · simpa [Conn.clean] using hr
          · simp only [Conn.bytes]
            rw [← List.append_assoc, List.take_append_drop]
          · simp
          · intro hb
            left
            simp at hb
            rcases hb with hb | hb
            · exact hb
            · exact absurd hb hs

theorem sysRead_one (conn : Conn) (h : conn.clean = true) (b : Byte) (rest : List Byte)
    (hb : conn.bytes = b :: rest) :
    ∃ c, sysRead 1 conn = (.ok [b], c) ∧ c.clean = true ∧ c.bytes = rest := by
  obtain ⟨bs, c, h1, h2, h3, h4, h5⟩ := sysRead_clean 1 conn h
  match bs, h1, h3, h4, h5 with
  | [], _, _, _, h5 =>
    rcases h5 rfl with h0 | h0
    · exact absurd h0 (by decide)
    · rw [hb] at h0; exact absurd h0 (by simp)
  | [x], h1, h3, _, _ =>
    rw [hb] at h3
    simp only [List.singleton_append, List.cons.injEq] at h3
    exact ⟨c, by rw [h1, h3.1], h2, h3.2.symm⟩
  | _ :: _ :: _, _, _, h4, _ => simp at h4

theorem readlineLoop_line (l : List Byte) :
    ∀ (k n : Nat) (conn : Conn) (acc : List Byte) (evs : List Event) (tail : List Byte),
      conn.clean = true → conn.bytes = l ++ 10 :: tail → 10 ∉ l → l.length < k →
      ∃ c, c.clean = true ∧ c.bytes = tail ∧
        readlineLoop k n conn acc evs =
          ⟨((n + l.length : Nat) : Int), acc ++ l ++ [10, 0], c, evs ++ recvEach (l ++ [10])⟩ := by
  induction l with
  | nil =>
    intro k n conn acc evs tail hc hb _ hk
    obtain ⟨c, h1, h2, h3⟩ := sysRead_one conn hc 10 tail (by simpa using hb)
    obtain ⟨k, rfl⟩ : ∃ j, k = j + 1 := ⟨k - 1, by simp at hk; omega⟩
    exact ⟨c, h2, h3, by simp [readlineLoop, h1, recvEach]⟩
  | cons b l ih =>
    intro k n conn acc evs tail hc hb hl hk
    obtain ⟨c, h1, h2, h3⟩ := sysRead_one conn hc b (l ++ 10 :: tail) (by simpa using hb)
    obtain ⟨k, rfl⟩ : ∃ j, k = j + 1 := ⟨k - 1, by simp at hk; omega⟩
    have hb10 : ¬ b = 10 := fun e => hl (by simp [e])
    have hl2 : 10 ∉ l := fun e => hl (List.mem_cons_of_mem _ e)
    obtain ⟨c2, g1, g2, g3⟩ := ih k (n + 1) c (acc ++ [b]) (evs ++ [.recv 1 (.ok [b])]) tail h2 h3 hl2
      (by simp at hk; omega)
    refine ⟨c2, g1, g2, ?_⟩
    simp only [readlineLoop, h1, hb10, if_false, g3]
    simp [recvEach, Nat.add_assoc, Nat.add_comm 1]

theorem getD_append_cons (f : List Byte) (x d : Byte) (r : List Byte) :
    (f ++ x :: r).getD f.length d = x := by
  induction f with
  | nil => rfl
  | cons a f ih => simpa using ih

theorem getD_append_cons_succ (f : List Byte) (x y d : Byte) (r : List Byte) :
    (f ++ x :: y :: r).getD (f.length + 1) d = y := by
  induction f with
  | nil => rfl
  | cons a f ih => simpa using ih

theorem set_append_cons (f : List Byte) (x v : Byte) (r : List Byte) :
    (f ++ x :: r).set f.length v = f ++ v :: r := by
  induction f with
  | nil => rfl
  | cons a f ih => simp [ih]

theorem cstr_append_nul (f : List Byte) (h0 : 0 ∉ f) (r : List Byte) :
    cstr (f ++ 0 :: r) = f := by
  induction f with
  | nil => simp [cstr]
  | cons a f ih =>
    have ha : a ≠ 0 := fun e => h0 (by simp [e])
    have hf : 0 ∉ f := fun e => h0 (List.mem_cons_of_mem _ e)
    have := ih hf
    simp only [cstr] at this ⊢
    have hab : (a != 0) = true := by simpa using ha
    simp [List.takeWhile, hab, this]

theorem serveGet_line (env : Env) (c1 : Conn) (wr : WrOracle) (f tail : List Byte)
    (hc : c1.clean = true) (hb : c1.bytes = f ++ CRLF ++ tail) (hLF : 10 ∉ f) (h0 : 0 ∉ f)
    (hlen : f.length ≤ 29) :
    ∃ c2, c2.clean = true ∧ c2.bytes = tail ∧ serveGet env c1 wr =
      if strstr f DOTDOTSLASH then (recvEach (f ++ CRLF) ++ (errReply wr).1, .brk)
      else if env.access f then
        (recvEach (f ++ CRLF) ++ (serveFile env f c2 wr).1, (serveFile env f c2 wr).2)
      else (recvEach (f ++ CRLF) ++ [Event.access f false] ++ (errReply wr).1, .brk) := by
  have hl : (10 : Byte) ∉ f ++ [13] := by
    simp only [List.mem_append, List.mem_singleton, not_or]
    exact ⟨hLF, by decide⟩
  obtain ⟨c2, g1, g2, g3⟩ := readlineLoop_line (f ++ [13]) 63 1 c1 [] [] tail hc
    (by simp [hb, CRLF]) hl (by simp; omega)
  refine ⟨c2, g1, g2, ?_⟩
  have hline : readline_unbuffered c1 BUFFLEN =
      ⟨((f.length + 2 : Nat) : Int), f ++ [13, 10, 0], c2, recvEach (f ++ CRLF)⟩ := by
    rw [readline_unbuffered, show BUFFLEN - 1 = 63 from rfl, g3]
    simp [CRLF, Nat.add_comm, Nat.add_left_comm]
  have hbuf : store (f ++ [13, 10, 0]) zeroBuf = f ++ 13 :: 10 :: (0 :: zeroBuf.drop (f.length + 3)) := by
    simp [store]
  unfold serveGet
  simp only [hline, hbuf]
  have h1 : ¬ (((f.length + 2 : Nat) : Int) < 0) := by omega
  have h2 : ¬ (((f.length + 2 : Nat) : Int) < 2) := by omega
  simp only [h1, h2, if_false, Int.toNat_ofNat, Nat.add_sub_cancel,
    show f.length + 2 - 1 = f.length + 1 from rfl, getD_append_cons, getD_append_cons_succ,
    set_append_cons, and_self, if_true, cstr_append_nul f h0]
  have h3 : ¬ (FILENAMELEN < f.length + 1) := by simp [FILENAMELEN]; omega
  simp only [h3, if_false]

theorem strstr_iff (hay needle : List Byte) :
    strstr hay needle = true ↔ needle <:+: hay := by
  induction hay with
  | nil => simp [strstr, List.isEmpty_iff]
  | cons c hay ih =>
    simp only [strstr, Bool.or_eq_true, ih, List.infix_cons_iff, List.isPrefixOf_iff_prefix]

theorem ofBytes_digits (d c b a : Nat) (hd : d < 256) (hc : c < 256) (hb : b < 256)
    (ha : a < 256) :
    ofBytes d c b a % 256 = a ∧ ofBytes d c b a / 256 % 256 = b ∧
      ofBytes d c b a / 65536 % 256 = c ∧ ofBytes d c b a / 16777216 % 256 = d := by
  unfold ofBytes
  refine ⟨?_, ?_, ?_, ?_⟩ <;> omega

theorem eq_ofBytes (s : Nat) (h : s < 4294967296) :
    s = ofBytes (s / 16777216 % 256) (s / 65536 % 256) (s / 256 % 256) (s % 256) := by
  unfold ofBytes
  omega

theorem bswap32_ofBytes (d c b a : Nat) (hd : d < 256) (hc : c < 256) (hb : b < 256)
    (ha : a < 256) : bswap32 (ofBytes d c b a) = ofBytes a b c d := by
  obtain ⟨h1, h2, h3, h4⟩ := ofBytes_digits d c b a hd hc hb ha
  simp only [bswap32, show (2:Nat) ^ 24 = 16777216 from rfl, show (2:Nat) ^ 16 = 65536 from rfl,
    show (2:Nat) ^ 8 = 256 from rfl, h1, h2, h3, h4]
  unfold ofBytes
  omega

theorem bswap32_bytes (s : Nat) (h : s < 2 ^ 32) :
    memBytes32 true (bswap32 s) = be32 s := by
  have hs : s < 4294967296 := h
  have hd : s / 16777216 % 256 < 256 := Nat.mod_lt _ (by decide)
  have hc : s / 65536 % 256 < 256 := Nat.mod_lt _ (by decide)
  have hb : s / 256 % 256 < 256 := Nat.mod_lt _ (by decide)
  have ha : s % 256 < 256 := Nat.mod_lt _ (by decide)
  have e := eq_ofBytes s hs
  obtain ⟨h1, h2, h3, h4⟩ := ofBytes_digits _ _ _ _ ha hb hc hd
  have hsw := bswap32_ofBytes _ _ _ _ hd hc hb ha
  rw [← e] at hsw
  simp only [memBytes32, be32, if_true, show (2:Nat) ^ 24 = 16777216 from rfl,
    show (2:Nat) ^ 16 = 65536 from rfl, show (2:Nat) ^ 8 = 256 from rfl, hsw, h1, h2, h3, h4]

theorem bswap32_bswap32 (s : Nat) (h : s < 2 ^ 32) : bswap32 (bswap32 s) = s := by
  have hs : s < 4294967296 := h
  have hd : s / 16777216 % 256 < 256 := Nat.mod_lt _ (by decide)
  have hc : s / 65536 % 256 < 256 := Nat.mod_lt _ (by decide)
  have hb : s / 256 % 256 < 256 := Nat.mod_lt _ (by decide)
  have ha : s % 256 < 256 := Nat.mod_lt _ (by decide)
  have e := eq_ofBytes s hs
  have hsw := bswap32_ofBytes _ _ _ _ hd hc hb ha
  rw [← e] at hsw
  rw [hsw, bswap32_ofBytes _ _ _ _ ha hb hc hd, ← e]

theorem memBytes32_htonl (le : Bool) (s : Nat) (h : s < 2 ^ 32) :
    memBytes32 le (htonl le s) = be32 s := by
  cases le
  · simp only [memBytes32, htonl, be32, Nat.mod_eq_of_lt h]
    rfl
  · simpa [htonl] using bswap32_bytes s h

theorem ntohl_htonl (le : Bool) (s : Nat) (h : s < 2 ^ 32) : ntohl le (htonl le s) = s := by
  cases le
  · simp only [ntohl, htonl, Bool.false_eq_true, if_false, Nat.mod_mod, Nat.mod_eq_of_lt h]
  · simpa [ntohl, htonl] using bswap32_bswap32 s h

theorem strncmp_eq_four (p lit : List Byte) (hp : p.length = 4) (hl : lit.length = 4)
    (h0 : 0 ∉ lit) (h : strncmp_eq 4 (store p zeroBuf) lit = true) : p = lit := by
  match p, hp, lit, hl, h0, h with
  | [a, b, c, d], _, [a1, b1, c1, d1], _, h0, h =>
    simp only [List.mem_cons, List.mem_singleton, not_or, List.not_mem_nil, or_false] at h0
    obtain ⟨ha, hb, hc, hd⟩ := h0
    have ha1 : a1 ≠ 0 := fun e => ha e.symm
    have hb1 : b1 ≠ 0 := fun e => hb e.symm
    have hc1 : c1 ≠ 0 := fun e => hc e.symm
    simp only [strncmp_eq, store, List.cons_append, List.headD_cons, List.tail_cons] at h
    by_cases e1 : a = a1 <;> by_cases e2 : b = b1 <;> by_cases e3 : c = c1 <;>
      by_cases e4 : d = d1 <;> simp_all

theorem serve_of_brk (env : Env) (conn : Conn) (wr : WrOracle)
    (h : (serveBody env conn wr).2 = .brk) :
    serve env conn wr = (serveBody env conn wr).1 ++ [.close] := by
  simp only [serve, serveLoop]
  generalize serveBody env conn wr = p at *
  obtain ⟨evs, nx⟩ := p
  cases nx <;> simp_all

theorem serve_body_append (env : Env) (conn : Conn) (wr : WrOracle) :
    ∃ rest, serve env conn wr = (serveBody env conn wr).1 ++ rest := by
  simp only [serve, serveLoop]
  generalize serveBody env conn wr = p
  obtain ⟨evs, nx⟩ := p
  cases nx
  · exact ⟨_, rfl⟩
  · exact ⟨_, rfl⟩
  · exact ⟨[], by simp⟩
  · exact ⟨_, rfl⟩

theorem serveBody_get (env : Env) (conn c : Conn) (wr : WrOracle)
    (h : sysRead 4 conn = (.ok GET_, c)) :
    serveBody env conn wr =
      (.recv 4 (.ok GET_) :: (serveGet env c wr).1, (serveGet env c wr).2) := by
  have e : strncmp_eq 4 (store GET_ zeroBuf) GET_ = true := by decide
  simp [serveBody, Readn_timeo, h, e]

theorem serveBody_other (env : Env) (conn c : Conn) (wr : WrOracle) (p : List Byte)
    (h : sysRead 4 conn = (.ok p, c)) (hG : strncmp_eq 4 (store p zeroBuf) GET_ = false)
    (hQ : strncmp_eq 4 (store p zeroBuf) QUIT = false) :
    serveBody env conn wr = ([.recv 4 (.ok p), .writen ERR (writen wr ERR).ret], .brk) := by
  simp [serveBody, Readn_timeo, h, hG, hQ, errReply]

theorem first_read_of_get (conn : Conn) (rest : List Byte) (hc : conn.clean = true)
    (hb : conn.bytes = GET_ ++ rest) :
    ∃ bs c, sysRead 4 conn = (.ok bs, c) ∧
      ((bs = GET_ ∧ c.clean = true ∧ c.bytes = rest) ∨
        bs = [71] ∨ bs = [71, 69] ∨ bs = [71, 69, 84]) := by
  obtain ⟨bs, c, h1, h2, h3, h4, h5⟩ := sysRead_clean 4 conn hc
  refine ⟨bs, c, h1, ?_⟩
  rw [hb] at h3 h5
  match bs, h3, h4, h5 with
  | [], _, _, h5 => simp [GET_] at h5
  | [a], h3, _, _ =>
    simp only [GET_, List.cons_append, List.cons.injEq] at h3
    obtain ⟨rfl, _⟩ := h3
    exact Or.inr (Or.inl rfl)
  | [a, b], h3, _, _ =>
    simp only [GET_, List.cons_append, List.cons.injEq] at h3
    obtain ⟨rfl, rfl, _⟩ := h3
    exact Or.inr (Or.inr (Or.inl rfl))
  | [a, b, c], h3, _, _ =>
    simp only [GET_, List.cons_append, List.cons.injEq] at h3
    obtain ⟨rfl, rfl, rfl, _⟩ := h3
    exact Or.inr (Or.inr (Or.inr rfl))
  | [a, b, c, d], h3, _, _ =>
    simp only [GET_, List.cons_append, List.cons.injEq, List.nil_append] at h3
    obtain ⟨rfl, rfl, rfl, rfl, h3⟩ := h3
    exact Or.inl ⟨rfl, h2, h3.symm⟩
  | _ :: _ :: _ :: _ :: _ :: _, _, h4, _ => simp at h4

theorem serveBody_split (env : Env) (conn c : Conn) (wr : WrOracle) (bs : List Byte)
    (h : sysRead 4 conn = (.ok bs, c)) (hs : bs = [71] ∨ bs = [71, 69] ∨ bs = [71, 69, 84]) :
    serveBody env conn wr = ([.recv 4 (.ok bs), .writen ERR (writen wr ERR).ret], .brk) := by
  rcases hs with rfl | rfl | rfl <;>
    exact serveBody_other env conn c wr _ h (by decide) (by decide)

theorem serveFile_ok (env : Env) (f : List Byte) (c : Conn) (wr : WrOracle) (s t : Nat)
    (hs : env.statSize f = some s) (hs32 : s < 2 ^ 32) (ht : env.statMtime f = some t)
    (ht32 : t < 2 ^ 32) (ho : env.fopen f = true) (hw : wr.good) :
    ∃ rest, (serveFile env f c wr).1 =
      [.access f true, .stat f (some s), .stat f (some t), .fopen f true, .writen OK_ 5,
        .writen (be32 s) 4, .writen (be32 t) 4, .sendfile f s (env.sendfile f s)] ++ rest := by
  obtain ⟨a1, _, a3⟩ := writen_good wr hw OK_
  obtain ⟨b1, _, b3⟩ := writen_good _ a3 (be32 s)
  obtain ⟨d1, _, _⟩ := writen_good _ b3 (be32 t)
  have l1 : ((OK_.length : Nat) : Int) = 5 := rfl
  have l2 : (((be32 s).length : Nat) : Int) = 4 := rfl
  have l3 : (((be32 t).length : Nat) : Int) = 4 := rfl
  rw [l1] at a1; rw [l2] at b1; rw [l3] at d1
  simp only [serveFile, get_file_size, get_file_timestamp, hs, ht, Nat.mod_eq_of_lt hs32,
    Nat.mod_eq_of_lt ht32, Nat.not_lt_zero, if_false, ho, memBytes32_htonl _ _ hs32,
    memBytes32_htonl _ _ ht32, ntohl_htonl _ _ hs32, a1, b1, d1, ne_eq, not_true_eq_false,
    Bool.true_eq_false]
  split_ifs
  · exact ⟨[.fclose], by simp⟩
  · exact ⟨[.fclose, .close], by simp⟩
  · exact ⟨[.fclose], by simp⟩


/-- Claim C4: for every 4-byte command prefix other than `"GET "` and `"QUIT"`,
`serve` writes exactly `"-ERR\r\n"`, closes the connection, and performs no
read after the one that returned the prefix. -/
theorem serve_malformed_command (env : Env) (conn c : Conn) (wr : WrOracle) (p : List Byte)
    (h : sysRead 4 conn = (.ok p, c)) (hlen : p.length = 4) (hG : p ≠ GET_) (hQ : p ≠ QUIT) :
    serve env conn wr = [.recv 4 (.ok p), .writen ERR (writen wr ERR).ret, .close] ∧
      (wr.good → (writen wr ERR).ret = 6 ∧ (writen wr ERR).sent = ERR) := by
  have hG1 : strncmp_eq 4 (store p zeroBuf) GET_ = false := by
    cases e : strncmp_eq 4 (store p zeroBuf) GET_
    · rfl
    · exact absurd (strncmp_eq_four p GET_ hlen rfl (by decide) e) hG
  have hQ1 : strncmp_eq 4 (store p zeroBuf) QUIT = false := by
    cases e : strncmp_eq 4 (store p zeroBuf) QUIT
    · rfl
    · exact absurd (strncmp_eq_four p QUIT hlen rfl (by decide) e) hQ
  have hb := serveBody_other env conn c wr p h hG1 hQ1
  refine ⟨?_, fun hw => ?_⟩
  · rw [serve_of_brk env conn wr (by rw [hb]), hb]
    rfl
  · obtain ⟨a1, a2, _⟩ := writen_good wr hw ERR
    exact ⟨a1, a2⟩

/-- Witness for C4: the prefix `PUT `. -/
theorem serve_malformed_command_witness :
    serve envA [.seg [80, 85, 84, 32, 97, 13, 10]] [] =
        [.recv 4 (.ok [80, 85, 84, 32]), .writen ERR (writen [] ERR).ret, .close] ∧
      (WrOracle.good [] → (writen [] ERR).ret = 6 ∧ (writen [] ERR).sent = ERR) :=
  serve_malformed_command envA [.seg [80, 85, 84, 32, 97, 13, 10]] [.seg [97, 13, 10]] []
    [80, 85, 84, 32] (by decide) (by decide) (by decide) (by decide)

/-- Claim C2 (amended): for every GET request whose filename has at most 29
bytes, none of them NUL or LF, and contains `"../"`, however the transport
splits the request, `serve` performs only reads before it writes `"-ERR\r\n"`
and closes the connection: no `access`, `stat`, `fopen` or `sendfile` on any
file, whatever the file system holds; and when the 4-byte prefix is read whole
`serve` has read the whole line, byte by byte, before it rejects it at the
traversal check. -/
theorem serve_traversal_rejected (env : Env) (conn : Conn) (wr : WrOracle) (f tail : List Byte)
    (hc : conn.clean = true) (hb : conn.bytes = GET_ ++ f ++ CRLF ++ tail) (hLF : 10 ∉ f)
    (h0 : 0 ∉ f) (hlen : f.length ≤ 29) (hdd : DOTDOTSLASH <:+: f) :
    (∃ pre, serve env conn wr = pre ++ [.writen ERR (writen wr ERR).ret, .close] ∧
        (∀ e ∈ pre, e.isRecv = true)) ∧
      (∀ e ∈ serve env conn wr, e.isFileOp = false) ∧
      (wr.good → (writen wr ERR).ret = 6 ∧ (writen wr ERR).sent = ERR) ∧
      ((sysRead 4 conn).1 = .ok GET_ →
        serve env conn wr =
          .recv 4 (.ok GET_) :: recvEach (f ++ CRLF) ++
            [.writen ERR (writen wr ERR).ret, .close]) := by
  obtain ⟨bs, c, h1, h2⟩ := first_read_of_get conn (f ++ CRLF ++ tail) hc (by simp [hb])
  have whole : bs = GET_ → c.clean = true → c.bytes = f ++ CRLF ++ tail →
      serve env conn wr =
        .recv 4 (.ok GET_) :: recvEach (f ++ CRLF) ++
          [.writen ERR (writen wr ERR).ret, .close] := by
    intro hbs hcc hcb
    rw [hbs] at h1
    obtain ⟨c2, _, _, g⟩ := serveGet_line env c wr f tail hcc hcb hLF h0 hlen
    rw [if_pos ((strstr_iff f DOTDOTSLASH).2 hdd)] at g
    have hbody := serveBody_get env conn c wr h1
    rw [g] at hbody
    rw [serve_of_brk env conn wr (by rw [hbody]), hbody]
    simp [errReply]
  have key : ∃ pre, serve env conn wr = pre ++ [.writen ERR (writen wr ERR).ret, .close] ∧
      (∀ e ∈ pre, e.isRecv = true) := by
    rcases h2 with ⟨hbs, hcc, hcb⟩ | hshort
    · refine ⟨.recv 4 (.ok GET_) :: recvEach (f ++ CRLF), ?_, ?_⟩
      · rw [whole hbs hcc hcb]
      · intro e he
        simp only [List.mem_cons, recvEach, List.mem_map] at he
        rcases he with rfl | ⟨b, _, rfl⟩ <;> rfl
    · have hbody := serveBody_split env conn c wr bs h1 hshort
      refine ⟨[.recv 4 (.ok bs)], ?_, ?_⟩
      · rw [serve_of_brk env conn wr (by rw [hbody]), hbody]
        rfl
      · intro e he
        simp only [List.mem_singleton] at he
        rw [he]; rfl
  refine ⟨key, ?_, fun hw => ?_, fun hE => ?_⟩
  · obtain ⟨pre, hpre, hrecv⟩ := key
    intro e he
    rw [hpre] at he
    simp only [List.mem_append, List.mem_cons, List.mem_singleton, List.not_mem_nil,
      or_false] at he
    rcases he with he | rfl | rfl
    · have := hrecv e he
      cases e <;> simp_all [Event.isRecv, Event.isFileOp]
    · rfl
    · rfl
  · obtain ⟨a1, a2, _⟩ := writen_good wr hw ERR
    exact ⟨a1, a2⟩
  · rw [h1] at hE
    simp only [ReadRes.ok.injEq] at hE
    rcases h2 with ⟨hbs, hcc, hcb⟩ | hshort
    · exact whole hbs hcc hcb
    · rw [hE] at hshort
      exact absurd hshort (by decide)

/-- Witness for C2 (amended): the request `GET ../a` arriving whole at a server
where a readable file `../a` exists: the line is read, the traversal check
rejects it, and no file is touched. -/
theorem serve_traversal_rejected_witness :
    envDotDot.access [46, 46, 47, 97] = true ∧
      serve envDotDot [.seg (GET_ ++ [46, 46, 47, 97] ++ CRLF)] [] =
        .recv 4 (.ok GET_) :: recvEach ([46, 46, 47, 97] ++ CRLF) ++
          [.writen ERR (writen [] ERR).ret, .close] ∧
      (∀ e ∈ serve envDotDot [.seg (GET_ ++ [46, 46, 47, 97] ++ CRLF)] [],
        e.isFileOp = false) ∧
      (writen [] ERR).ret = 6 :=
  ⟨by decide,
    (serve_traversal_rejected envDotDot [.seg (GET_ ++ [46, 46, 47, 97] ++ CRLF)] []
      [46, 46, 47, 97] [] (by decide) (by decide) (by decide) (by decide) (by decide)
      ⟨[], [97], by decide⟩).2.2.2 (by decide),
    (serve_traversal_rejected envDotDot [.seg (GET_ ++ [46, 46, 47, 97] ++ CRLF)] []
      [46, 46, 47, 97] [] (by decide) (by decide) (by decide) (by decide) (by decide)
      ⟨[], [97], by decide⟩).2.1,
    by decide⟩

/-- Counterexample to C2 as stated: the filename `a\0../` contains `"../"`, yet
`serve` copies only the C string `a`, finds no `"../"` in it, checks and opens
the file `a` and answers with the success header. -/
theorem serve_traversal_after_nul :
    DOTDOTSLASH <:+: [97, 0, 46, 46, 47] ∧
      serve envA [.seg (GET_ ++ [97, 0, 46, 46, 47] ++ CRLF)] [] =
        [.recv 4 (.ok GET_), .recv 1 (.ok [97]), .recv 1 (.ok [0]), .recv 1 (.ok [46]),
          .recv 1 (.ok [46]), .recv 1 (.ok [47]), .recv 1 (.ok [13]), .recv 1 (.ok [10]),
          .access [97] true, .stat [97] (some 11), .stat [97] (some 1700000000),
          .fopen [97] true, .writen OK_ 5, .writen [0, 0, 0, 11] 4,
          .writen [101, 83, 241, 0] 4, .sendfile [97] 11 11, .fclose,
          .recv 4 (.ok []), .writen ERR 6, .close] :=
  ⟨⟨[97, 0], [], by decide⟩, by decide⟩

/-- The amended C2 excludes LF from the filename because a line ends at the first
LF: in the bytes `a\r\n../` between `"GET "` and the closing CR LF the line
read is `a\r\n`, so `serve` looks up and serves the file `a`, and only then
rejects the rest as a malformed command. -/
theorem serve_traversal_after_lf :
    DOTDOTSLASH <:+: [97, 13, 10, 46, 46, 47] ∧
      serve envA [.seg (GET_ ++ [97, 13, 10, 46, 46, 47] ++ CRLF)] [] =
        [.recv 4 (.ok GET_), .recv 1 (.ok [97]), .recv 1 (.ok [13]), .recv 1 (.ok [10]),
          .access [97] true, .stat [97] (some 11), .stat [97] (some 1700000000),
          .fopen [97] true, .writen OK_ 5, .writen [0, 0, 0, 11] 4,
          .writen [101, 83, 241, 0] 4, .sendfile [97] 11 11, .fclose,
          .recv 4 (.ok [46, 46, 47, 13]), .writen ERR 6, .close] :=
  ⟨⟨[97, 13, 10], [], by decide⟩, by decide⟩

/-- Claim C5: for every well-formed GET request (filename of at most 29 bytes,
without NUL or LF, free of `"../"`) naming a file for which `access` fails,
the only thing `serve` writes is `"-ERR\r\n"` (no success header, no file
bytes), after which it closes the connection. -/
theorem serve_missing_file (env : Env) (conn : Conn) (wr : WrOracle) (f tail : List Byte)
    (hc : conn.clean = true) (hb : conn.bytes = GET_ ++ f ++ CRLF ++ tail) (hLF : 10 ∉ f)
    (h0 : 0 ∉ f) (hlen : f.length ≤ 29) (hdd : ¬ DOTDOTSLASH <:+: f)
    (hacc : env.access f = false) :
    ∃ pre, serve env conn wr = pre ++ [.writen ERR (writen wr ERR).ret, .close] ∧
      (∀ e ∈ pre, e.isSend = false) ∧
      writtenBufs (serve env conn wr) = [ERR] ∧
      (wr.good → (writen wr ERR).ret = 6 ∧ (writen wr ERR).sent = ERR) := by
  have key : ∃ pre, serve env conn wr = pre ++ [.writen ERR (writen wr ERR).ret, .close] ∧
      (∀ e ∈ pre, e.isSend = false) ∧ writtenBufs pre = [] := by
    obtain ⟨bs, c, h1, h2⟩ := first_read_of_get conn (f ++ CRLF ++ tail) hc (by simp [hb])
    rcases h2 with ⟨rfl, hcc, hcb⟩ | hshort
    · obtain ⟨c2, _, _, g⟩ := serveGet_line env c wr f tail hcc hcb hLF h0 hlen
      have hst : strstr f DOTDOTSLASH = false := by
        cases e : strstr f DOTDOTSLASH
        · rfl
        · exact absurd ((strstr_iff f DOTDOTSLASH).1 e) hdd
      simp only [hst, hacc, Bool.false_eq_true, if_false] at g
      have hbody := serveBody_get env conn c wr h1
      rw [g] at hbody
      refine ⟨.recv 4 (.ok GET_) :: (recvEach (f ++ CRLF) ++ [.access f false]), ?_, ?_, ?_⟩
      · rw [serve_of_brk env conn wr (by rw [hbody]), hbody]
        simp [errReply]
      · intro e he
        simp only [List.mem_cons, List.mem_append, recvEach, List.mem_map, List.mem_singleton,
          List.not_mem_nil, or_false] at he
        rcases he with rfl | ⟨b, _, rfl⟩ | rfl <;> rfl
      · have : ∀ l : List Byte, writtenBufs (recvEach l ++ [.access f false]) = [] := by
          intro l
          induction l with
          | nil => rfl
          | cons b l ih => simpa [recvEach, writtenBufs] using ih
        simpa [writtenBufs] using this (f ++ CRLF)
    · have hbody := serveBody_split env conn c wr bs h1 hshort
      refine ⟨[.recv 4 (.ok bs)], ?_, ?_, rfl⟩
      · rw [serve_of_brk env conn wr (by rw [hbody]), hbody]
        rfl
      · intro e he
        simp only [List.mem_singleton] at he
        rw [he]; rfl
  obtain ⟨pre, hpre, hsend, hbufs⟩ := key
  refine ⟨pre, hpre, hsend, ?_, fun hw => ?_⟩
  · rw [hpre]
    have app : ∀ (a b : List Event), writtenBufs (a ++ b) = writtenBufs a ++ writtenBufs b := by
      intro a b
      induction a with
      | nil => rfl
      | cons x a ih => cases x <;> simp [writtenBufs, ih]
    rw [app, hbufs]
    rfl
  · obtain ⟨a1, a2, _⟩ := writen_good wr hw ERR
    exact ⟨a1, a2⟩

/-- Witness for C5: the request `GET b` on a server that only has `a`. -/
theorem serve_missing_file_witness :
    ∃ pre, serve envA [.seg [71, 69, 84, 32, 98, 13], .seg [10]] [] =
        pre ++ [.writen ERR (writen [] ERR).ret, .close] ∧
      (∀ e ∈ pre, e.isSend = false) ∧
      writtenBufs (serve envA [.seg [71, 69, 84, 32, 98, 13], .seg [10]] []) = [ERR] ∧
      (WrOracle.good [] → (writen [] ERR).ret = 6 ∧ (writen [] ERR).sent = ERR) :=
  serve_missing_file envA [.seg [71, 69, 84, 32, 98, 13], .seg [10]] [] [98] []
    (by decide) (by decide) (by decide) (by decide) (by decide)
    (fun h => absurd ((strstr_iff [98] DOTDOTSLASH).2 h) (by decide)) (by decide)

/-- Claim C1: for a GET naming a readable file of size `s` and modification
time `t`, both below `2^32`, received whole and with no failing write, the
first things `serve` sends are `"+OK\r\n"` (5 bytes), then `s` in 4 bytes
big-endian, then `t` in 4 bytes big-endian, 13 bytes in all, and the file copy
that follows is requested for exactly `s` bytes. -/
theorem serve_success_header (env : Env) (conn c1 : Conn) (wr : WrOracle) (f tail : List Byte)
    (s t : Nat) (h4 : sysRead 4 conn = (.ok GET_, c1)) (hc : c1.clean = true)
    (hb : c1.bytes = f ++ CRLF ++ tail) (hLF : 10 ∉ f) (h0 : 0 ∉ f) (hlen : f.length ≤ 29)
    (hdd : ¬ DOTDOTSLASH <:+: f) (hacc : env.access f = true)
    (hs : env.statSize f = some s) (hs32 : s < 2 ^ 32) (ht : env.statMtime f = some t)
    (ht32 : t < 2 ^ 32) (ho : env.fopen f = true) (hw : wr.good) :
    ∃ pre rest, serve env conn wr =
        pre ++ [.writen OK_ 5, .writen (be32 s) 4, .writen (be32 t) 4,
          .sendfile f s (env.sendfile f s)] ++ rest ∧
      (∀ e ∈ pre, e.isSend = false) ∧ (OK_ ++ be32 s ++ be32 t).length = 13 := by
  obtain ⟨c2, _, _, g⟩ := serveGet_line env c1 wr f tail hc hb hLF h0 hlen
  have hst : strstr f DOTDOTSLASH = false := by
    cases e : strstr f DOTDOTSLASH
    · rfl
    · exact absurd ((strstr_iff f DOTDOTSLASH).1 e) hdd
  simp only [hst, hacc, Bool.false_eq_true, if_false, if_true] at g
  obtain ⟨r1, hr1⟩ := serveFile_ok env f c2 wr s t hs hs32 ht ht32 ho hw
  obtain ⟨r2, hr2⟩ := serve_body_append env conn wr
  have hbody := serveBody_get env conn c1 wr h4
  rw [g] at hbody
  refine ⟨.recv 4 (.ok GET_) :: (recvEach (f ++ CRLF) ++
    [.access f true, .stat f (some s), .stat f (some t), .fopen f true]), r1 ++ r2, ?_, ?_, rfl⟩
  · rw [hr2, hbody]
    simp only [hr1]
    simp
  · intro e he
    simp only [List.mem_cons, List.mem_append, recvEach, List.mem_map, List.mem_singleton,
      List.not_mem_nil, or_false] at he
    rcases he with rfl | ⟨b, _, rfl⟩ | rfl | rfl | rfl | rfl <;> rfl

/-- Witness for C1: a file of 11 bytes modified at 1700000000 gives the header
`2B 4F 4B 0D 0A 00 00 00 0B 65 53 F1 00`. -/
theorem serve_success_header_witness :
    (∃ pre rest, serve envA [.seg (GET_ ++ [97] ++ CRLF)] [] =
        pre ++ [.writen OK_ 5, .writen (be32 11) 4, .writen (be32 1700000000) 4,
          .sendfile [97] 11 (envA.sendfile [97] 11)] ++ rest ∧
      (∀ e ∈ pre, e.isSend = false) ∧ (OK_ ++ be32 11 ++ be32 1700000000).length = 13) ∧
    OK_ ++ be32 11 ++ be32 1700000000 =
      [0x2B, 0x4F, 0x4B, 0x0D, 0x0A, 0x00, 0x00, 0x00, 0x0B, 0x65, 0x53, 0xF1, 0x00] :=
  ⟨serve_success_header envA [.seg (GET_ ++ [97] ++ CRLF)] [.seg ([97] ++ CRLF)] [] [97] []
      11 1700000000 (by decide) (by decide) (by decide) (by decide) (by decide) (by decide)
      (fun h => absurd ((strstr_iff [97] DOTDOTSLASH).2 h) (by decide)) (by decide)
      (by decide) (by decide) (by decide) (by decide) (by decide) (fun _ h => by simp at h),
    by decide⟩

/-- Claim C3 (failing input): when the transport delivers `GE` and then
`T a\r\n`, `Readn_timeo(fd, buf, 4)` returns 2; at end-of-stream it returns 0;
`serve` takes the short count for a successful read and answers the split
`GET` with `"-ERR\r\n"`. -/
theorem Readn_timeo_short_count :
    Readn_timeo [.seg [71, 69], .seg [84, 32, 97, 13, 10]] 4 =
        (2, [71, 69], [.seg [84, 32, 97, 13, 10]]) ∧
      Readn_timeo [] 4 = (0, [], []) ∧
      serve envA [.seg [71, 69], .seg [84, 32, 97, 13, 10]] [] =
        [.recv 4 (.ok [71, 69]), .writen ERR 6, .close] := by
  decide

/-- Claim C6 (failing input): when the `stat` inside `get_file_size`, or the
one inside `get_file_timestamp`, fails for a readable file, `serve` writes no
error reply: it sends the success header with the field `FF FF FF FF`. -/
theorem serve_stat_failure_header :
    serve envStatSizeFails [.seg (GET_ ++ [97] ++ CRLF)] [] =
        [.recv 4 (.ok GET_), .recv 1 (.ok [97]), .recv 1 (.ok [13]), .recv 1 (.ok [10]),
          .access [97] true, .stat [97] none, .stat [97] (some 1700000000), .fopen [97] true,
          .writen OK_ 5, .writen [255, 255, 255, 255] 4, .writen [101, 83, 241, 0] 4,
          .sendfile [97] 4294967295 11, .fclose, .close] ∧
      serve envStatMtimeFails [.seg (GET_ ++ [97] ++ CRLF)] [] =
        [.recv 4 (.ok GET_), .recv 1 (.ok [97]), .recv 1 (.ok [13]), .recv 1 (.ok [10]),
          .access [97] true, .stat [97] (some 11), .stat [97] none, .fopen [97] true,
          .writen OK_ 5, .writen [0, 0, 0, 11] 4, .writen [255, 255, 255, 255] 4,
          .sendfile [97] 11 11, .fclose, .recv 4 (.ok []), .writen ERR 6, .close] := by
  decide

/-- Claim C7 (failing input): when `sendfile` fails (returns -1, nothing
moved) for a file of 11 bytes, `serve` does not close the connection: it goes
on to read and serve the next command. -/
theorem serve_sendfile_failure_continues :
    serve envSendfileFails [.seg (GET_ ++ [97] ++ CRLF), .seg (GET_ ++ [97] ++ CRLF)] [] =
      [.recv 4 (.ok GET_), .recv 1 (.ok [97]), .recv 1 (.ok [13]), .recv 1 (.ok [10]),
        .access [97] true, .stat [97] (some 11), .stat [97] (some 1700000000),
        .fopen [97] true, .writen OK_ 5, .writen [0, 0, 0, 11] 4, .writen [101, 83, 241, 0] 4,
        .sendfile [97] 11 (-1), .fclose,
        .recv 4 (.ok GET_), .recv 1 (.ok [97]), .recv 1 (.ok [13]), .recv 1 (.ok [10]),
        .access [97] true, .stat [97] (some 11), .stat [97] (some 1700000000),
        .fopen [97] true, .writen OK_ 5, .writen [0, 0, 0, 11] 4, .writen [101, 83, 241, 0] 4,
        .sendfile [97] 11 (-1), .fclose,
        .recv 4 (.ok []), .writen ERR 6, .close] := by
  decide

theorem sysRead_size (n : Nat) (conn : Conn) :
    (sysRead n conn).2.size ≤ conn.size ∧
      ∀ bs, (sysRead n conn).1 = .ok bs → bs ≠ [] → (sysRead n conn).2.size < conn.size := by
  induction conn with
  | nil => simp [sysRead, Conn.size]
  | cons ev rest ih =>
    cases ev with
    | fail e =>
      simp only [sysRead, Conn.size]
      exact ⟨by omega, fun bs h => by simp at h⟩
    | seg s =>
      by_cases hs : s = []
      · simp only [sysRead, hs, if_true, Conn.size]
        exact ⟨by have := ih.1; omega, fun bs h hne => by have := ih.2 bs h hne; omega⟩
      · simp only [sysRead, hs, if_false, Conn.size]
        by_cases hn : s.length ≤ n
        · simp only [hn, if_true]
          exact ⟨by omega, fun _ _ _ => by omega⟩
        · simp only [hn, if_false, Conn.size, List.length_drop]
          refine ⟨by omega, fun bs h hne => ?_⟩
          simp only [ReadRes.ok.injEq] at h
          have hn0 : n ≠ 0 := by
            intro h0
            apply hne
            rw [← h, h0]
            rfl
          omega

theorem readlineLoop_size (k : Nat) :
    ∀ (n : Nat) (conn : Conn) (acc : List Byte) (evs : List Event),
      (readlineLoop k n conn acc evs).conn.size ≤ conn.size := by
  induction k with
  | zero => intro n conn acc evs; simp [readlineLoop]
  | succ k ih =>
    intro n conn acc evs
    have hsz := (sysRead_size 1 conn).1
    rcases hR : sysRead 1 conn with ⟨r, c⟩
    rw [hR] at hsz
    simp only at hsz
    cases r with
    | err e => simpa [readlineLoop, hR] using hsz
    | ok bs =>
      cases bs with
      | nil =>
        simp only [readlineLoop, hR]
        split_ifs <;> exact hsz
      | cons b t =>
        simp only [readlineLoop, hR]
        split_ifs
        · exact hsz
        · exact Nat.le_trans (ih _ _ _ _) hsz

theorem serveFile_again (env : Env) (f : List Byte) (conn : Conn) (wr : WrOracle)
    (c : Conn) (w : WrOracle) (h : (serveFile env f conn wr).2 = .again c w) : c = conn := by
  unfold serveFile at h
  simp only at h
  split_ifs at h <;> simp_all

theorem serveGet_again (env : Env) (conn : Conn) (wr : WrOracle)
    (c : Conn) (w : WrOracle) (h : (serveGet env conn wr).2 = .again c w) :
    c.size ≤ conn.size := by
  unfold serveGet at h
  simp only at h
  split_ifs at h
  all_goals try (simp at h)
  rw [serveFile_again _ _ _ _ _ _ h]
  exact readlineLoop_size _ _ _ _ _

theorem serveQuit_not_again (conn : Conn) (wr : WrOracle) (c : Conn) (w : WrOracle) :
    (serveQuit conn wr).2 ≠ .again c w := by
  unfold serveQuit
  simp only
  split_ifs <;> simp

theorem serveBody_again (env : Env) (conn : Conn) (wr : WrOracle)
    (c : Conn) (w : WrOracle) (h : (serveBody env conn wr).2 = .again c w) :
    c.size < conn.size := by
  have hsz := (sysRead_size 4 conn).2
  unfold serveBody Readn_timeo at h
  rcases hR : sysRead 4 conn with ⟨r, c1⟩
  rw [hR] at h hsz
  cases r with
  | err e => simp at h
  | ok bs =>
    simp only at h hsz
    have hn : ¬ (((bs.length : Nat) : Int) < 0) := by omega
    simp only [hn, if_false] at h
    cases hG : strncmp_eq 4 (store bs zeroBuf) GET_
    · simp only [hG, Bool.false_eq_true, if_false] at h
      cases hQ : strncmp_eq 4 (store bs zeroBuf) QUIT
      · simp [hQ] at h
      · simp only [hQ, if_true] at h
        exact absurd h (serveQuit_not_again c1 wr c w)
    · simp only [hG, if_true] at h
      have hne : bs ≠ [] := by
        intro e
        rw [e] at hG
        exact absurd hG (by decide)
      exact Nat.lt_of_le_of_lt (serveGet_again env c1 wr c w h) (hsz bs rfl hne)

theorem readlineLoop_events (k : Nat) :
    ∀ (n : Nat) (conn : Conn) (acc : List Byte) (evs : List Event),
      Event.nofuel ∉ evs → Event.nofuel ∉ (readlineLoop k n conn acc evs).events := by
  induction k with
  | zero => intro n conn acc evs h; simpa [readlineLoop] using h
  | succ k ih =>
    intro n conn acc evs h
    rcases hR : sysRead 1 conn with ⟨r, c⟩
    cases r with
    | err e => simpa [readlineLoop, hR] using h
    | ok bs =>
      cases bs with
      | nil =>
        simp only [readlineLoop, hR]
        split_ifs <;> simpa using h
      | cons b t =>
        simp only [readlineLoop, hR]
        split_ifs
        · simpa using h
        · exact ih _ _ _ _ (by simpa using h)

theorem serveFile_events (env : Env) (f : List Byte) (conn : Conn) (wr : WrOracle) :
    Event.nofuel ∉ (serveFile env f conn wr).1 := by
  unfold serveFile
  simp only
  split_ifs <;> simp [errReply]

theorem serveGet_events (env : Env) (conn : Conn) (wr : WrOracle) :
    Event.nofuel ∉ (serveGet env conn wr).1 := by
  have hl : Event.nofuel ∉ (readline_unbuffered conn BUFFLEN).events :=
    readlineLoop_events _ _ _ _ _ (by simp)
  have hf := serveFile_events env
  unfold serveGet
  simp only
  split_ifs <;> simp [errReply, hl, hf]

theorem serveBody_events (env : Env) (conn : Conn) (wr : WrOracle) :
    Event.nofuel ∉ (serveBody env conn wr).1 := by
  have hg := serveGet_events env
  unfold serveBody serveQuit
  simp only
  split_ifs <;> simp [errReply, hg]

theorem serveLoop_fuel (env : Env) (k : Nat) :
    ∀ (conn : Conn) (wr : WrOracle), conn.size < k → Event.nofuel ∉ serveLoop env k conn wr := by
  induction k with
  | zero => intro conn wr h; exact absurd h (Nat.not_lt_zero _)
  | succ k ih =>
    intro conn wr h
    have hb := serveBody_events env conn wr
    have ha := serveBody_again env conn wr
    simp only [serveLoop]
    rcases hB : serveBody env conn wr with ⟨evs, nx⟩
    rw [hB] at hb ha
    cases nx with
    | again c w =>
      have := ih c w (by have := ha c w rfl; omega)
      simp [hb, this]
    | brk => simp [hb]
    | ret => simpa using hb
    | undef => simp [hb]

theorem serve_fuel (env : Env) (conn : Conn) (wr : WrOracle) :
    Event.nofuel ∉ serve env conn wr :=
  serveLoop_fuel env _ conn wr (Nat.lt_succ_self _)

theorem Read_eq_sysRead (n : Nat) (conn : Conn) :
    Read n conn =
      match sysRead n conn with
      | (.ok bs, c) => (some bs, c, [.recv n (.ok bs)])
      | (.err e, c) =>
        if e = Errno.EINTR then
          ((Read n c).1, (Read n c).2.1, .recv n (.err e) :: (Read n c).2.2)
        else (none, c, [.recv n (.err e)]) := by
  induction conn with
  | nil => rfl
  | cons ev rest ih =>
    cases ev with
    | fail e => simp only [Read, sysRead]
    | seg bs =>
      by_cases hb : bs = []
      · simp only [Read, sysRead, hb, if_true]
        exact ih
      · simp only [Read, sysRead, hb, if_false]

theorem Read_spec (n : Nat) (conn : Conn) :
    (∀ e ∈ (Read n conn).2.2, e.isRecv = true) ∧
      ∀ bs, (Read n conn).1 = some bs →
        conn.bytes = bs ++ (Read n conn).2.1.bytes ∧ bs.length ≤ n ∧
          (bs ≠ [] → (Read n conn).2.1.size < conn.size) := by
  induction conn with
  | nil =>
    refine ⟨?_, ?_⟩
    · intro e he
      simp only [Read, List.mem_singleton] at he
      rw [he]; rfl
    · intro bs hbs
      simp only [Read, Option.some.injEq] at hbs
      subst hbs
      simp [Read, Conn.bytes]
  | cons ev rest ih =>
    obtain ⟨ih1, ih2⟩ := ih
    cases ev with
    | fail e =>
      by_cases he : e = Errno.EINTR
      · simp only [Read, he, if_true]
        refine ⟨?_, ?_⟩
        · intro x hx
          simp only [List.mem_cons] at hx
          rcases hx with rfl | hx
          · rfl
          · exact ih1 x hx
        · intro bs hbs
          obtain ⟨a, b, c⟩ := ih2 bs hbs
          refine ⟨by simpa [Conn.bytes] using a, b, fun h => ?_⟩
          have := c h
          simp only [Conn.size]
          omega
      · simp only [Read, he, if_false]
        refine ⟨?_, ?_⟩
        · intro x hx
          simp only [List.mem_singleton] at hx
          rw [hx]; rfl
        · intro bs hbs
          simp at hbs
    | seg s =>
      by_cases hs : s = []
      · simp only [Read, hs, if_true]
        refine ⟨ih1, ?_⟩
        intro bs hbs
        obtain ⟨a, b, c⟩ := ih2 bs hbs
        refine ⟨by simpa [Conn.bytes] using a, b, fun h => ?_⟩
        have := c h
        simp only [Conn.size]
        omega
      · simp only [Read, hs, if_false]
        refine ⟨?_, ?_⟩
        · intro x hx
          simp only [List.mem_singleton] at hx
          rw [hx]; rfl
        · intro bs hbs
          simp only [Option.some.injEq] at hbs
          subst hbs
          by_cases hn : s.length ≤ n
          · simp only [hn, if_true, Conn.bytes, Conn.size, List.take_of_length_le hn]
            refine ⟨trivial, trivial, fun _ => by omega⟩
          · simp only [hn, if_false, Conn.bytes, Conn.size]
            refine ⟨?_, ?_, ?_⟩
            · rw [← List.append_assoc, List.take_append_drop]
            · simp
            · intro hne
              have hn0 : n ≠ 0 := by
                intro h0
                apply hne
                simp [h0]
              simp only [List.length_drop]
              omega

theorem recvLoop_bounded (dim : Nat) (hdim : dim < 2 ^ 32) :
    ∀ (k remain : Nat) (conn : Conn), remain ≤ dim → conn.bytes.length ≤ remain →
      conn.size < k →
      (∀ v, CEvent.progress v ∈ (recvLoop dim k remain conn).events → v ≤ dim) ∧
        (∀ v, (recvLoop dim k remain conn).out = .ret v → v ≤ dim) ∧
        (CEvent.fclose ∈ (recvLoop dim k remain conn).events →
          (recvLoop dim k remain conn).out = .ret dim) ∧
        (recvLoop dim k remain conn).out ≠ .nofuel := by
  have hd : dim < 4294967296 := hdim
  intro k
  induction k with
  | zero => intro remain conn _ _ h; exact absurd h (Nat.not_lt_zero _)
  | succ k ih =>
    intro remain conn hrem hbytes hsize
    obtain ⟨hrecv, hsome⟩ := Read_spec MAXBUFLEN conn
    rcases hR : Read MAXBUFLEN conn with ⟨o, c, evs⟩
    rw [hR] at hrecv hsome
    have hnp : ∀ v, CEvent.progress v ∉ evs := fun v hv => by
      have := hrecv _ hv; simp [CEvent.isRecv] at this
    have hnc : CEvent.fclose ∉ evs := fun hv => by
      have := hrecv _ hv; simp [CEvent.isRecv] at this
    cases o with
    | none =>
      simp only [recvLoop, hR]
      exact ⟨fun v hv => absurd hv (hnp v), fun v hv => by simp at hv,
        fun hv => absurd hv hnc, by simp⟩
    | some bs =>
      obtain ⟨hb1, hb2, hb3⟩ := hsome bs rfl
      simp only at hb1 hb3
      have hlen : bs.length + c.bytes.length = conn.bytes.length := by
        rw [hb1, List.length_append]
      simp only [recvLoop, hR, show (2 : Nat) ^ 32 = 4294967296 from rfl]
      by_cases hpos : 0 < bs.length
      · have hne : bs ≠ [] := fun h => by simp [h] at hpos
        have hr1 : (remain + 4294967296 - bs.length) % 4294967296 = remain - bs.length := by
          omega
        have hr2 : (dim + 4294967296 - (remain - bs.length)) % 4294967296 =
            dim - (remain - bs.length) := by omega
        simp only [hpos, if_true, hr1, hr2]
        by_cases hz : dim = 0
        · simp only [hz, if_true]
          refine ⟨fun v hv => ?_, fun v hv => by simp at hv, fun hv => ?_, by simp⟩
          · simp only [List.mem_append, List.mem_singleton] at hv
            rcases hv with hv | hv
            · exact absurd hv (hnp v)
            · simp at hv
          · simp only [List.mem_append, List.mem_singleton] at hv
            rcases hv with hv | hv
            · exact absurd hv hnc
            · simp at hv
        · simp only [hz, if_false]
          by_cases hfin : remain - bs.length ≤ 0
          · simp only [hfin, if_true]
            have h0 : remain - bs.length = 0 := by omega
            refine ⟨fun v hv => ?_, fun v hv => ?_, fun _ => by simp [h0], by simp⟩
            · simp only [List.mem_append, List.mem_cons, List.mem_singleton,
                List.not_mem_nil, or_false] at hv
              rcases hv with hv | hv | hv | hv
              · exact absurd hv (hnp v)
              · simp at hv
              · simp only [CEvent.progress.injEq] at hv
                omega
              · simp at hv
            · simp only [Outcome.ret.injEq] at hv
              omega
          · simp only [hfin, if_false]
            obtain ⟨i1, i2, i3, i4⟩ := ih (remain - bs.length) c (by omega) (by omega)
              (by have := hb3 hne; omega)
            refine ⟨fun v hv => ?_, i2, fun hv => ?_, i4⟩
            · simp only [List.mem_append, List.mem_cons, List.mem_singleton,
                List.not_mem_nil, or_false] at hv
              rcases hv with (hv | hv | hv) | hv
              · exact absurd hv (hnp v)
              · simp at hv
              · simp only [CEvent.progress.injEq] at hv
                omega
              · exact i1 v hv
            · simp only [List.mem_append, List.mem_cons, List.mem_singleton,
                List.not_mem_nil, or_false] at hv
              rcases hv with (hv | hv | hv) | hv
              · exact absurd hv hnc
              · simp at hv
              · simp at hv
              · exact i3 hv
      · simp only [hpos, if_false]
        refine ⟨fun v hv => absurd hv (hnp v), fun v hv => ?_, fun hv => absurd hv hnc,
          by simp⟩
        simp only [Outcome.ret.injEq] at hv
        omega

/-- Claim C8 (failing input): for the requested name `d/a` and a stream that
ends after 2 of 5 bytes, `recvfile` creates `a` but `Recvfile` removes `d/a`:
a local file `d/a` is deleted and the partial file `a` still exists. -/
theorem Recvfile_removes_requested_path :
    (Recvfile (fun _ => true) [.seg [1, 2]] [100, 47, 97] 5).events =
        [.fopen [97] true, .recv 2048 (.ok [1, 2]), .fwrite [1, 2], .progress 2,
          .recv 2048 (.ok []), .remove [100, 47, 97]] ∧
      applyEvents [([100, 47, 97], [9, 9])] none
          (Recvfile (fun _ => true) [.seg [1, 2]] [100, 47, 97] 5).events =
        [([97], [1, 2])] ∧
      LocalFS.has (applyEvents [] none
          (Recvfile (fun _ => true) [.seg [1, 2]] [100, 47, 97] 5).events) [97] = true := by
  decide

/-- Claim C9 (failing input): for `dim = 0`, `recvfile` issues a read although
all 0 bytes have been received; when the connection stays open and the read
times out the process ends instead of returning 0. -/
theorem recvfile_empty_file_reads :
    recvfile (fun _ => true) [.fail .EWOULDBLOCK] [97] 0 =
        ⟨.exit, [], [.fopen [97] true, .recv 2048 (.err .EWOULDBLOCK)]⟩ ∧
      recvfile (fun _ => true) [] [97] 0 =
        ⟨.ret 0, [], [.fopen [97] true, .recv 2048 (.ok [])]⟩ := by
  decide

/-- Claim C10 (amended): for every way the transport delivers a stream of at
most `dim` bytes, the received count `dim - remain_data` (32-bit unsigned) is
at most `dim` at every iteration of the loop of `recvfile` and at its return,
and when the loop completes (the file is closed) `recvfile` returns `dim`. -/
theorem recvfile_received_le_dim (canOpen : List Byte → Bool) (conn : Conn)
    (filename : List Byte) (dim : Nat) (hdim : dim < 2 ^ 32)
    (hb : conn.bytes.length ≤ dim) :
    (∀ v, CEvent.progress v ∈ (recvfile canOpen conn filename dim).events → v ≤ dim) ∧
      (∀ v, (recvfile canOpen conn filename dim).out = .ret v → v ≤ dim) ∧
      (CEvent.fclose ∈ (recvfile canOpen conn filename dim).events →
        (recvfile canOpen conn filename dim).out = .ret dim) ∧
      (recvfile canOpen conn filename dim).out ≠ .nofuel := by
  obtain ⟨h1, h2, h3, h4⟩ :=
    recvLoop_bounded dim hdim (conn.size + 1) dim conn (Nat.le_refl _) hb (Nat.lt_succ_self _)
  by_cases ho : canOpen (localName filename) = true
  · simp only [recvfile, ho, if_true]
    refine ⟨fun v hv => ?_, h2, fun hv => ?_, h4⟩
    · simp only [List.mem_cons] at hv
      rcases hv with hv | hv
      · simp at hv
      · exact h1 v hv
    · simp only [List.mem_cons] at hv
      rcases hv with hv | hv
      · simp at hv
      · exact h3 hv
  · simp only [recvfile, ho, if_false]
    refine ⟨fun v hv => by simp at hv, fun v hv => by simp at hv, fun hv => by simp at hv,
      by simp⟩

/-- Witness for C10 (amended): 5 bytes arriving as 2 and 3. -/
theorem recvfile_received_le_dim_witness :
    (∀ v, CEvent.progress v ∈
        (recvfile (fun _ => true) [.seg [1, 2], .seg [3, 4, 5]] [97] 5).events → v ≤ 5) ∧
      (∀ v, (recvfile (fun _ => true) [.seg [1, 2], .seg [3, 4, 5]] [97] 5).out = .ret v →
        v ≤ 5) ∧
      (CEvent.fclose ∈ (recvfile (fun _ => true) [.seg [1, 2], .seg [3, 4, 5]] [97] 5).events →
        (recvfile (fun _ => true) [.seg [1, 2], .seg [3, 4, 5]] [97] 5).out = .ret 5) ∧
      (recvfile (fun _ => true) [.seg [1, 2], .seg [3, 4, 5]] [97] 5).out ≠ .nofuel :=
  recvfile_received_le_dim (fun _ => true) [.seg [1, 2], .seg [3, 4, 5]] [97] 5
    (by decide) (by decide)

/-- Counterexample to C10 as stated: with `dim = 5` and a chunk of 10 bytes the
received count is 10 after the first iteration and at the return. -/
theorem recvfile_overshoot :
    CEvent.progress 10 ∈
        (recvfile (fun _ => true) [.seg [1, 2, 3, 4, 5, 6, 7, 8, 9, 10]] [97] 5).events ∧
      (recvfile (fun _ => true) [.seg [1, 2, 3, 4, 5, 6, 7, 8, 9, 10]] [97] 5).out = .ret 10 ∧
      ¬ (10 ≤ 5) := by
  decide

theorem readnLoop_eq_sysRead (n : Nat) (conn : Conn) (nleft : Nat) (acc : List Byte) :
    readnLoop n conn nleft acc =
      if 0 < nleft then
        match sysRead nleft conn with
        | (.err e, c) => if e = Errno.EINTR then readnLoop n c nleft acc else ⟨-1, acc, c⟩
        | (.ok bs, c) =>
          if bs.length = 0 then ⟨((n - nleft : Nat) : Int), acc, c⟩
          else readnLoop n c (nleft - bs.length) (acc ++ bs)
      else ⟨((n - nleft : Nat) : Int), acc, conn⟩ := by
  induction conn with
  | nil =>
    by_cases h : 0 < nleft
    · simp [readnLoop, sysRead, h]
    · simp [readnLoop, h]
  | cons ev rest ih =>
    by_cases h : 0 < nleft
    · have h0 : nleft ≠ 0 := by omega
      cases ev with
      | fail e => simp only [readnLoop, sysRead, h, h0, if_true, if_false]
      | seg bs =>
        by_cases hb : bs = []
        · simp only [readnLoop, sysRead, h, h0, hb, if_true, if_false]
          rw [ih]
          simp only [h, if_true]
        · have hl : bs.length ≠ 0 := fun e => hb (List.length_eq_zero.1 e)
          by_cases hn : bs.length ≤ nleft
          · simp [readnLoop, sysRead, h, h0, hb, hn, hl, List.take_of_length_le hn]
          · have hlt : nleft < bs.length := by omega
            have hmin : min nleft bs.length = nleft := by omega
            simp only [readnLoop, sysRead, h, h0, hb, hn, if_true, if_false,
              List.length_take, hmin, Nat.sub_self]
    · have h0 : nleft = 0 := by omega
      subst h0
      cases ev <;> simp [readnLoop]

theorem readnLoop_spec (n : Nat) (conn : Conn) :
    ∀ (nleft : Nat) (acc : List Byte), nleft ≤ n →
      (nleft ≤ conn.avail.length →
        (readnLoop n conn nleft acc).ret = (n : Int) ∧
          (readnLoop n conn nleft acc).buf = acc ++ conn.avail.take nleft ∧
          (readnLoop n conn nleft acc).conn.avail = conn.avail.drop nleft ∧
          (readnLoop n conn nleft acc).conn.broken = conn.broken) ∧
      (conn.avail.length < nleft → conn.broken = false →
        (readnLoop n conn nleft acc).ret = ((n - (nleft - conn.avail.length) : Nat) : Int) ∧
          (readnLoop n conn nleft acc).buf = acc ++ conn.avail) ∧
      (conn.avail.length < nleft → conn.broken = true →
        (readnLoop n conn nleft acc).ret = -1) := by
  induction conn with
  | nil =>
    intro nleft acc hn
    refine ⟨fun h => ?_, fun h _ => ?_, fun _ h => ?_⟩
    · simp only [Conn.avail, List.length_nil, Nat.le_zero] at h
      subst h
      simp [readnLoop, Conn.avail, Conn.broken]
    · simp [readnLoop, Conn.avail]
    · simp [Conn.broken] at h
  | cons ev rest ih =>
    intro nleft acc hn
    by_cases h0 : nleft = 0
    · subst h0
      refine ⟨fun _ => ?_, fun h _ => absurd h (Nat.not_lt_zero _),
        fun h _ => absurd h (Nat.not_lt_zero _)⟩
      cases ev <;> simp [readnLoop]
    · cases ev with
      | fail e =>
        by_cases he : e = Errno.EINTR
        · simp only [readnLoop, h0, he, if_true, if_false, Conn.avail, Conn.broken]
          exact ih nleft acc hn
        · simp only [readnLoop, h0, he, if_false, Conn.avail, Conn.broken, List.length_nil]
          refine ⟨fun h => ?_, fun _ h => by simp at h, fun _ _ => trivial⟩
          exact absurd (Nat.le_zero.1 h) h0
      | seg bs =>
        by_cases hb : bs = []
        · subst hb
          simp only [readnLoop, h0, if_true, if_false, Conn.avail, Conn.broken, List.nil_append]
          exact ih nleft acc hn
        · by_cases hl : bs.length ≤ nleft
          · simp only [readnLoop, h0, hb, hl, if_true, if_false, Conn.avail, Conn.broken,
              List.length_append]
            obtain ⟨i1, i2, i3⟩ := ih (nleft - bs.length) (acc ++ bs) (by omega)
            refine ⟨fun h => ?_, fun h hbr => ?_, fun h hbr => ?_⟩
            · obtain ⟨a, b, c, d⟩ := i1 (by omega)
              refine ⟨a, ?_, ?_, d⟩
              · rw [b, List.take_append_eq_append_take, List.take_of_length_le hl,
                  List.append_assoc]
              · rw [c, List.drop_append_eq_append_drop, List.drop_of_length_le hl,
                  List.nil_append]
            · obtain ⟨a, b⟩ := i2 (by omega) hbr
              refine ⟨?_, by rw [b, List.append_assoc]⟩
              rw [a]
              congr 1
              omega
            · exact i3 (by omega) hbr
          · have hlt : nleft < bs.length := by omega
            simp only [readnLoop, h0, hb, hl, if_false, Conn.avail, Conn.broken,
              List.length_append]
            refine ⟨fun _ => ⟨by simp, ?_, ?_, trivial⟩, fun h => by omega, fun h => by omega⟩
            · rw [List.take_append_of_le_length (by omega)]
            · rw [List.drop_append_of_le_length (by omega)]

/-- Claim C11: `readn(fd, buf, n)`, for every script of chunks and `EINTR`
interruptions: if the stream supplies at least `n` bytes before end-of-stream
or error it returns `n` with the first `n` stream bytes in `buf`; if the
stream ends after `k < n` bytes it returns `k` with those bytes; if a read
error other than `EINTR` comes first it returns -1. Conversely a return value
`k < n` only occurs when the stream ended after exactly `k` bytes, and -1 only
on such a read error. -/
theorem readn_exact (conn : Conn) (n : Nat) :
    (n ≤ conn.avail.length →
        (readn conn n).ret = (n : Int) ∧ (readn conn n).buf = conn.avail.take n) ∧
      (conn.avail.length < n → conn.broken = false →
        (readn conn n).ret = (conn.avail.length : Int) ∧ (readn conn n).buf = conn.avail) ∧
      (conn.avail.length < n → conn.broken = true → (readn conn n).ret = -1) ∧
      (∀ k : Nat, (readn conn n).ret = (k : Int) → k < n →
        conn.avail.length = k ∧ conn.broken = false) ∧
      ((readn conn n).ret = -1 → conn.broken = true ∧ conn.avail.length < n) := by
  obtain ⟨h1, h2, h3⟩ := readnLoop_spec n conn n [] (Nat.le_refl n)
  have hA : n ≤ conn.avail.length →
      (readn conn n).ret = (n : Int) ∧ (readn conn n).buf = conn.avail.take n := by
    intro h
    obtain ⟨a, b, _, _⟩ := h1 h
    exact ⟨a, by simpa using b⟩
  have hB : conn.avail.length < n → conn.broken = false →
      (readn conn n).ret = (conn.avail.length : Int) ∧ (readn conn n).buf = conn.avail := by
    intro h hb
    obtain ⟨a, b⟩ := h2 h hb
    refine ⟨?_, by simpa using b⟩
    rw [readn, a]
    congr 1
    omega
  have hC : conn.avail.length < n → conn.broken = true → (readn conn n).ret = -1 :=
    fun h hb => h3 h hb
  refine ⟨hA, hB, hC, fun k hk hkn => ?_, fun hm => ?_⟩
  · by_cases hle : n ≤ conn.avail.length
    · have := (hA hle).1
      rw [this] at hk
      omega
    · cases hb : conn.broken
      · have := (hB (by omega) hb).1
        rw [this] at hk
        exact ⟨by omega, rfl⟩
      · have := hC (by omega) hb
        rw [this] at hk
        omega
  · by_cases hle : n ≤ conn.avail.length
    · have := (hA hle).1
      rw [this] at hm
      omega
    · cases hb : conn.broken
      · have := (hB (by omega) hb).1
        rw [this] at hm
        omega
      · exact ⟨rfl, by omega⟩

/-- Witness for C11: five bytes out of six arriving as 2 and 4 with an
interruption in between. -/
theorem readn_exact_witness :
    (readn [.seg [1, 2], .fail .EINTR, .seg [3, 4, 5, 6]] 5).ret = 5 ∧
      (readn [.seg [1, 2], .fail .EINTR, .seg [3, 4, 5, 6]] 5).buf = [1, 2, 3, 4, 5] :=
  (readn_exact [.seg [1, 2], .fail .EINTR, .seg [3, 4, 5, 6]] 5).1 (by decide)

/-- Claim C12 (amended): `Readn(fd, ptr, n)` ends the run exactly when a read
error other than `EINTR` (a timeout included) comes before `n` bytes; when the
stream supplies `n` bytes it returns `n`; when the stream ends after `k < n`
bytes it returns the short count `k` to its caller. -/
theorem Readn_outcomes (conn : Conn) (n : Nat) :
    (n ≤ conn.avail.length →
        ∃ r, Readn conn n = some r ∧ r.ret = (n : Int) ∧ r.buf = conn.avail.take n) ∧
      (conn.avail.length < n → conn.broken = false →
        ∃ r, Readn conn n = some r ∧ r.ret = (conn.avail.length : Int) ∧
          r.buf = conn.avail) ∧
      (conn.avail.length < n → conn.broken = true → Readn conn n = none) := by
  obtain ⟨hA, hB, hC, _, _⟩ := readn_exact conn n
  refine ⟨fun h => ?_, fun h hb => ?_, fun h hb => ?_⟩
  · obtain ⟨a, b⟩ := hA h
    refine ⟨readn conn n, ?_, a, b⟩
    have : ¬ (readn conn n).ret < 0 := by rw [a]; omega
    simp [Readn, this]
  · obtain ⟨a, b⟩ := hB h hb
    refine ⟨readn conn n, ?_, a, b⟩
    have : ¬ (readn conn n).ret < 0 := by rw [a]; omega
    simp [Readn, this]
  · have a := hC h hb
    have : (readn conn n).ret < 0 := by rw [a]; omega
    simp [Readn, this]

/-- Witness for C12 (amended): a stream that ends after `+O`. -/
theorem Readn_outcomes_witness :
    ∃ r, Readn [.seg [43], .seg [79]] 5 = some r ∧ r.ret = 2 ∧ r.buf = [43, 79] :=
  (Readn_outcomes [.seg [43], .seg [79]] 5).2.1 (by decide) (by decide)

/-- Counterexample to C12 as stated: at end-of-stream after 2 of 5 bytes
`Readn` returns normally, with the count 2. -/
theorem Readn_short_count :
    Readn [.seg [43, 79]] 5 = some ⟨2, [43, 79], []⟩ ∧ (2 : Int) < 5 := by
  decide

theorem writenLoop_cases (n : Nat) (wr : WrOracle) :
    ∀ (left sent : List Byte),
      ((writenLoop n wr left sent).ret = (n : Int) ∧
          (writenLoop n wr left sent).sent = sent ++ left) ∨
        ((writenLoop n wr left sent).ret = -1 ∧
          ∃ a b, left = a ++ b ∧ b ≠ [] ∧ (writenLoop n wr left sent).sent = sent ++ a) := by
  induction wr with
  | nil => intro left sent; left; simp [writenLoop]
  | cons ev wr ih =>
    intro left sent
    by_cases hl : left = []
    · subst hl
      left
      cases ev <;> simp [writenLoop]
    · cases ev with
      | accept k =>
        simp only [writenLoop, hl, if_false]
        rcases ih (left.drop (k + 1)) (sent ++ left.take (k + 1)) with ⟨a, b⟩ | ⟨a, x, y, hxy, hy, b⟩
        · left
          refine ⟨a, ?_⟩
          rw [b, List.append_assoc, List.take_append_drop]
        · right
          refine ⟨a, left.take (k + 1) ++ x, y, ?_, hy, ?_⟩
          · rw [List.append_assoc, ← hxy, List.take_append_drop]
          · rw [b, List.append_assoc]
      | fail e =>
        by_cases he : e = Errno.EINTR
        · simp only [writenLoop, hl, he, if_false, if_true]
          exact ih left sent
        · simp only [writenLoop, hl, he, if_false]
          right
          exact ⟨trivial, [], left, rfl, hl, by simp⟩

/-- Claim C13: `writen(fd, buf, n)` returns `n` or -1 and nothing else; it
returns `n` exactly when the pieces the transport accepted, in order, make up
all of `buf`; otherwise what was accepted is a proper initial part of `buf`;
when no `write` fails for a reason other than a signal it returns `n`. -/
theorem writen_exact (wr : WrOracle) (bs : List Byte) :
    ((writen wr bs).ret = (bs.length : Int) ∨ (writen wr bs).ret = -1) ∧
      ((writen wr bs).ret = (bs.length : Int) ↔ (writen wr bs).sent = bs) ∧
      (writen wr bs).sent <+: bs ∧
      (wr.good → (writen wr bs).ret = (bs.length : Int)) := by
  have hg := fun h => (writen_good wr h bs).1
  rcases writenLoop_cases bs.length wr bs [] with ⟨a, b⟩ | ⟨a, x, y, hxy, hy, b⟩
  · have b1 : (writen wr bs).sent = bs := by simpa [writen] using b
    have a1 : (writen wr bs).ret = (bs.length : Int) := a
    exact ⟨Or.inl a1, ⟨fun _ => b1, fun _ => a1⟩, by rw [b1], hg⟩
  · have b1 : (writen wr bs).sent = x := by simpa [writen] using b
    have a1 : (writen wr bs).ret = -1 := a
    have hne : x ≠ bs := by
      intro e
      have := congrArg List.length hxy
      rw [List.length_append, e] at this
      have : y.length = 0 := by omega
      exact hy (List.length_eq_zero.1 this)
    refine ⟨Or.inr a1, ⟨fun h => ?_, fun h => ?_⟩, ?_, hg⟩
    · rw [a1] at h
      omega
    · rw [b1] at h
      exact absurd h hne
    · rw [b1]
      exact ⟨y, hxy.symm⟩

/-- Witness for C13: five bytes accepted as 2, an interruption, 1, then the
rest. -/
theorem writen_exact_witness :
    (writen [.accept 1, .fail .EINTR, .accept 0] [1, 2, 3, 4, 5]).ret = 5 ∧
      (writen [.accept 1, .fail .EINTR, .accept 0] [1, 2, 3, 4, 5]).sent = [1, 2, 3, 4, 5] :=
  ⟨(writen_exact [.accept 1, .fail .EINTR, .accept 0] [1, 2, 3, 4, 5]).2.2.2
      (fun e h => by simpa using h),
    ((writen_exact [.accept 1, .fail .EINTR, .accept 0] [1, 2, 3, 4, 5]).2.1).1 (by decide)⟩

theorem strncmp_eq_two (q : List Byte) (hq : q.length = 2)
    (h : strncmp_eq 2 (store q zeroBuf) CRLF = true) : q = CRLF := by
  match q, hq, h with
  | [a, b], _, h =>
    simp only [strncmp_eq, store, CRLF, List.cons_append, List.headD_cons, List.tail_cons] at h
    by_cases e1 : a = 13 <;> by_cases e2 : b = 10 <;> simp_all [CRLF]

theorem serveBody_quit (env : Env) (conn c : Conn) (wr : WrOracle)
    (h : sysRead 4 conn = (.ok QUIT, c)) :
    serveBody env conn wr =
      (.recv 4 (.ok QUIT) :: (serveQuit c wr).1, (serveQuit c wr).2) := by
  have e1 : strncmp_eq 4 (store QUIT zeroBuf) GET_ = false := by decide
  have e2 : strncmp_eq 4 (store QUIT zeroBuf) QUIT = true := by decide
  simp [serveBody, Readn_timeo, h, e1, e2]

/-- The part of the `"QUIT"` branch that works: when the 4-byte prefix is
`"QUIT"` and the next read returns 2 bytes, `serve` closes the connection
having written nothing if they are CR LF, and otherwise writes exactly
`"-ERR\r\n"` and closes the connection. -/
theorem serve_quit (env : Env) (conn c1 c2 : Conn) (wr : WrOracle) (q : List Byte)
    (h4 : sysRead 4 conn = (.ok QUIT, c1)) (h2 : sysRead 2 c1 = (.ok q, c2))
    (hq : q.length = 2) :
    (q = CRLF → serve env conn wr = [.recv 4 (.ok QUIT), .recv 2 (.ok q), .close]) ∧
      (q ≠ CRLF →
        serve env conn wr =
            [.recv 4 (.ok QUIT), .recv 2 (.ok q), .writen ERR (writen wr ERR).ret, .close] ∧
          (wr.good → (writen wr ERR).ret = 6 ∧ (writen wr ERR).sent = ERR)) := by
  have hbody := serveBody_quit env conn c1 wr h4
  have hn : ¬ (((q.length : Nat) : Int) < 0) := by omega
  refine ⟨fun e => ?_, fun e => ⟨?_, fun hw => ?_⟩⟩
  · have hs : strncmp_eq 2 (store q zeroBuf) CRLF = true := by rw [e]; decide
    have hquit : serveQuit c1 wr = ([.recv 2 (.ok q)], .brk) := by
      simp [serveQuit, Readn_timeo, h2, hs]
    rw [hquit] at hbody
    rw [serve_of_brk env conn wr (by rw [hbody]), hbody]
    rfl
  · have hs : strncmp_eq 2 (store q zeroBuf) CRLF = false := by
      cases h : strncmp_eq 2 (store q zeroBuf) CRLF
      · rfl
      · exact absurd (strncmp_eq_two q hq h) e
    have hquit : serveQuit c1 wr =
        ([.recv 2 (.ok q), .writen ERR (writen wr ERR).ret], .brk) := by
      simp [serveQuit, Readn_timeo, h2, hs, errReply]
    rw [hquit] at hbody
    rw [serve_of_brk env conn wr (by rw [hbody]), hbody]
    rfl
  · obtain ⟨a1, a2, _⟩ := writen_good wr hw ERR
    exact ⟨a1, a2⟩

/-- An instance of `serve_quit`: `QUIT\r\n` arriving as `QUIT` and `\r\n`. -/
theorem serve_quit_witness :
    serve envA [.seg QUIT, .seg CRLF] [] = [.recv 4 (.ok QUIT), .recv 2 (.ok CRLF), .close] :=
  (serve_quit envA [.seg QUIT, .seg CRLF] [.seg CRLF] [] [] CRLF (by decide) (by decide)
    (by decide)).1 rfl

/-- Claim C14 (failing input): after the prefix `"QUIT"`, when CR and LF arrive
separately, the single `read` of `Readn_timeo(connfd, buf, 2)` returns 1 with
only the CR; `serve` compares the half-filled buffer with `"\r\n"` and writes
`"-ERR\r\n"` to a well-formed `QUIT`. -/
theorem serve_quit_split :
    Readn_timeo [.seg [13], .seg [10]] 2 = (1, [13], [.seg [10]]) ∧
      serve envA [.seg QUIT, .seg [13], .seg [10]] [] =
        [.recv 4 (.ok QUIT), .recv 2 (.ok [13]), .writen ERR 6, .close] := by
  decide

theorem sysRead_append_one (pre : Conn) :
    ∀ (b : Byte) (t : List Byte) (tail : Conn), pre.clean = true → pre.bytes = b :: t →
      ∃ pre1, sysRead 1 (pre ++ tail) = (.ok [b], pre1 ++ tail) ∧ pre1.clean = true ∧
        pre1.bytes = t := by
  induction pre with
  | nil => intro b t tail _ hb; simp [Conn.bytes] at hb
  | cons ev pre ih =>
    intro b t tail hc hb
    cases ev with
    | fail e => simp [Conn.clean] at hc
    | seg s =>
      have hc1 : Conn.clean pre = true := by simpa [Conn.clean] using hc
      cases s with
      | nil =>
        obtain ⟨p1, h1, h2, h3⟩ := ih b t tail hc1 (by simpa [Conn.bytes] using hb)
        exact ⟨p1, by simpa [sysRead] using h1, h2, h3⟩
      | cons x s =>
        simp only [Conn.bytes, List.cons_append, List.cons.injEq] at hb
        obtain ⟨rfl, hb⟩ := hb
        cases s with
        | nil =>
          exact ⟨pre, by simp [sysRead], hc1, by simpa using hb⟩
        | cons y s =>
          exact ⟨.seg (y :: s) :: pre, by simp [sysRead], by simpa [Conn.clean] using hc1,
            by simpa [Conn.bytes] using hb⟩

theorem sysRead_append_nil (pre : Conn) (n : Nat) (tail : Conn) (hc : pre.clean = true)
    (hb : pre.bytes = []) : sysRead n (pre ++ tail) = sysRead n tail := by
  induction pre with
  | nil => rfl
  | cons ev pre ih =>
    cases ev with
    | fail e => simp [Conn.clean] at hc
    | seg s =>
      simp only [Conn.bytes, List.append_eq_nil] at hb
      have hc1 : Conn.clean pre = true := by simpa [Conn.clean] using hc
      simp only [List.cons_append, sysRead, hb.1, if_true]
      exact ih hc1 hb.2

theorem readlineLoop_fail (e : Errno) (rest : Conn) (l : List Byte) :
    ∀ (pre : Conn) (k n : Nat) (acc : List Byte) (evs : List Event),
      pre.clean = true → pre.bytes = l → 10 ∉ l → l.length < k →
      readlineLoop k n (pre ++ .fail e :: rest) acc evs =
        ⟨-1, acc ++ l, rest, evs ++ recvEach l ++ [.recv 1 (.err e)]⟩ := by
  induction l with
  | nil =>
    intro pre k n acc evs hc hb _ hk
    obtain ⟨k, rfl⟩ : ∃ j, k = j + 1 := ⟨k - 1, by simp at hk; omega⟩
    have h1 : sysRead 1 (pre ++ .fail e :: rest) = (.err e, rest) := by
      rw [sysRead_append_nil pre 1 _ hc hb]
      rfl
    simp [readlineLoop, h1, recvEach]
  | cons b l ih =>
    intro pre k n acc evs hc hb hl hk
    obtain ⟨k, rfl⟩ : ∃ j, k = j + 1 := ⟨k - 1, by simp at hk; omega⟩
    obtain ⟨p1, h1, h2, h3⟩ := sysRead_append_one pre b l (.fail e :: rest) hc hb
    have hb10 : ¬ b = 10 := fun e => hl (by simp [e])
    have hl2 : 10 ∉ l := fun e => hl (List.mem_cons_of_mem _ e)
    have := ih p1 k (n + 1) (acc ++ [b]) (evs ++ [.recv 1 (.ok [b])]) h2 h3 hl2
      (by simp at hk; omega)
    simp only [readlineLoop, h1, hb10, if_false, this]
    simp [recvEach]

/-- Claim C20 (amended): when the read of the 4-byte prefix fails (a timeout
included), or the read of the 2 bytes after `"QUIT"` fails, `serve` closes the
connection without writing anything; when a read fails inside the filename
line after `"GET "`, `serve` writes `"-ERR\r\n"` and then closes the
connection. -/
theorem serve_read_failure (env : Env) (conn : Conn) (wr : WrOracle) (e : Errno) :
    (∀ c, sysRead 4 conn = (.err e, c) → serve env conn wr = [.recv 4 (.err e), .close]) ∧
      (∀ c1 c2, sysRead 4 conn = (.ok QUIT, c1) → sysRead 2 c1 = (.err e, c2) →
        serve env conn wr = [.recv 4 (.ok QUIT), .recv 2 (.err e), .close]) ∧
      (∀ (pre rest : Conn), sysRead 4 conn = (.ok GET_, pre ++ .fail e :: rest) →
        pre.clean = true → 10 ∉ pre.bytes → pre.bytes.length < 63 →
        serve env conn wr =
          .recv 4 (.ok GET_) :: recvEach pre.bytes ++
            [.recv 1 (.err e), .writen ERR (writen wr ERR).ret, .close]) := by
  refine ⟨fun c h => ?_, fun c1 c2 h4 h2 => ?_, fun pre rest h4 hc hl hk => ?_⟩
  · have hbody : serveBody env conn wr = ([.recv 4 (.err e)], .brk) := by
      simp [serveBody, Readn_timeo, h]
    rw [serve_of_brk env conn wr (by rw [hbody]), hbody]
    rfl
  · have hbody := serveBody_quit env conn c1 wr h4
    have hquit : serveQuit c1 wr = ([.recv 2 (.err e)], .brk) := by
      simp [serveQuit, Readn_timeo, h2]
    rw [hquit] at hbody
    rw [serve_of_brk env conn wr (by rw [hbody]), hbody]
    rfl
  · have hbody := serveBody_get env conn _ wr h4
    have hline := readlineLoop_fail e rest pre.bytes pre 63 1 [] [] hc rfl hl hk
    have hget : serveGet env (pre ++ .fail e :: rest) wr =
        (recvEach pre.bytes ++ [.recv 1 (.err e), .writen ERR (writen wr ERR).ret], .brk) := by
      unfold serveGet
      rw [readline_unbuffered, show BUFFLEN - 1 = 63 from rfl, hline]
      simp [errReply]
    rw [hget] at hbody
    rw [serve_of_brk env conn wr (by rw [hbody]), hbody]
    simp

/-- Witness for C20 (amended): a timeout after `GET a`. -/
theorem serve_read_failure_witness :
    serve envA [.seg GET_, .seg [97], .fail .EWOULDBLOCK] [] =
      .recv 4 (.ok GET_) :: recvEach (Conn.bytes [.seg [97]]) ++
        [.recv 1 (.err .EWOULDBLOCK), .writen ERR (writen [] ERR).ret, .close] :=
  (serve_read_failure envA [.seg GET_, .seg [97], .fail .EWOULDBLOCK] [] .EWOULDBLOCK).2.2
    [.seg [97]] [] (by decide) (by decide) (by decide) (by decide)

/-- Counterexample to C20 as stated: the read times out in the filename line,
after `GET a`, and `serve` writes the 6 bytes `"-ERR\r\n"` before it closes. -/
theorem serve_timeout_in_line_replies :
    serve envA [.seg GET_, .seg [97], .fail .EWOULDBLOCK] [] =
      [.recv 4 (.ok GET_), .recv 1 (.ok [97]), .recv 1 (.err .EWOULDBLOCK),
        .writen ERR 6, .close] := by
  decide

theorem BodyShape_prepend (pre evs : List Event) (nx : Next)
    (hp : ∀ e ∈ pre, e.quiet = true) (h : BodyShape evs nx) : BodyShape (pre ++ evs) nx := by
  have happ : ∀ l : List Event, (∀ e ∈ l, e.quiet = true) → ∀ e ∈ pre ++ l, e.quiet = true := by
    intro l hl e he
    rcases List.mem_append.1 he with h1 | h1
    · exact hp e h1
    · exact hl e h1
  cases nx with
  | again c w => exact happ evs h
  | undef => exact happ evs h
  | ret =>
    obtain ⟨p, rfl, hq⟩ := h
    exact ⟨pre ++ p, by simp, happ p hq⟩
  | brk =>
    rcases h with h | ⟨p, r, rfl, hq⟩
    · exact Or.inl (happ evs h)
    · exact Or.inr ⟨pre ++ p, r, by simp, happ p hq⟩

theorem BodyShape_errReply (wr : WrOracle) : BodyShape (errReply wr).1 .brk :=
  Or.inr ⟨[], _, rfl, fun _ h => by simp at h⟩

theorem memBytes32_ne_ERR (le : Bool) (x : Nat) : memBytes32 le x ≠ ERR := by
  cases le <;> simp [memBytes32, ERR]

theorem serveFile_shape (env : Env) (f : List Byte) (conn : Conn) (wr : WrOracle) :
    BodyShape (serveFile env f conn wr).1 (serveFile env f conn wr).2 := by
  have hok : OK_ ≠ ERR := by decide
  have hm := memBytes32_ne_ERR env.littleEndian
  have herr := BodyShape_errReply wr
  unfold serveFile
  simp only
  split_ifs
  all_goals dsimp only
  all_goals first
    | (refine BodyShape_prepend _ _ _ ?_ herr
       simp [List.forall_mem_append, Event.quiet])
    | (refine ⟨_, rfl, ?_⟩
       simp [List.forall_mem_append, Event.quiet, hok, hm])
    | (simp only [BodyShape]
       simp [List.forall_mem_append, Event.quiet, hok, hm])

theorem readlineLoop_quiet (k : Nat) :
    ∀ (n : Nat) (conn : Conn) (acc : List Byte) (evs : List Event),
      (∀ e ∈ evs, e.quiet = true) →
      ∀ e ∈ (readlineLoop k n conn acc evs).events, e.quiet = true := by
  induction k with
  | zero => intro n conn acc evs h; simpa [readlineLoop] using h
  | succ k ih =>
    intro n conn acc evs h
    rcases hR : sysRead 1 conn with ⟨r, c⟩
    cases r with
    | err e =>
      simp only [readlineLoop, hR, List.forall_mem_append]
      exact ⟨h, by simp [Event.quiet]⟩
    | ok bs =>
      cases bs with
      | nil =>
        simp only [readlineLoop, hR]
        split_ifs <;> simp only [List.forall_mem_append] <;> exact ⟨h, by simp [Event.quiet]⟩
      | cons b t =>
        simp only [readlineLoop, hR]
        split_ifs
        · simp only [List.forall_mem_append]
          exact ⟨h, by simp [Event.quiet]⟩
        · refine ih _ _ _ _ ?_
          simp only [List.forall_mem_append]
          exact ⟨h, by simp [Event.quiet]⟩

theorem serveGet_shape (env : Env) (conn : Conn) (wr : WrOracle) :
    BodyShape (serveGet env conn wr).1 (serveGet env conn wr).2 := by
  have hl : ∀ e ∈ (readline_unbuffered conn BUFFLEN).events, e.quiet = true :=
    readlineLoop_quiet _ _ _ _ _ (fun _ h => by simp at h)
  have herr := BodyShape_errReply wr
  have hf := serveFile_shape env
  unfold serveGet
  simp only
  split_ifs
  all_goals dsimp only
  all_goals first
    | exact BodyShape_prepend _ _ _ hl herr
    | exact hl
    | exact BodyShape_prepend _ _ _ hl (hf _ _ _)
    | (refine BodyShape_prepend _ _ _ ?_ herr
       simp only [List.forall_mem_append]
       exact ⟨hl, by simp [Event.quiet]⟩)

theorem serveQuit_shape (conn : Conn) (wr : WrOracle) :
    BodyShape (serveQuit conn wr).1 (serveQuit conn wr).2 := by
  have herr := BodyShape_errReply wr
  unfold serveQuit
  simp only
  split_ifs
  all_goals dsimp only
  all_goals first
    | (refine BodyShape_prepend _ _ _ ?_ herr
       simp [Event.quiet])
    | (simp only [BodyShape]
       simp [Event.quiet])

theorem serveBody_shape (env : Env) (conn : Conn) (wr : WrOracle) :
    BodyShape (serveBody env conn wr).1 (serveBody env conn wr).2 := by
  have h1 : ∀ e ∈ [Event.recv 4 (sysRead 4 conn).1], e.quiet = true := by simp [Event.quiet]
  unfold serveBody
  simp only
  split_ifs
  · exact Or.inl h1
  · exact BodyShape_prepend _ _ _ h1 (serveGet_shape env _ wr)
  · exact BodyShape_prepend _ _ _ h1 (serveQuit_shape _ wr)
  · exact BodyShape_prepend _ _ _ h1 (BodyShape_errReply wr)

theorem serveLoop_error_reply_last (env : Env) (r : Int) (k : Nat) :
    ∀ (conn : Conn) (wr : WrOracle), Event.writen ERR r ∈ serveLoop env k conn wr →
      ∃ pre, serveLoop env k conn wr = pre ++ [.writen ERR r, .close] ∧
        ∀ e ∈ pre, e.quiet = true := by
  have hnq : (Event.writen ERR r).quiet = false := by simp [Event.quiet]
  have notin : ∀ l : List Event, (∀ e ∈ l, e.quiet = true) → Event.writen ERR r ∉ l := by
    intro l hl hmem
    have := hl _ hmem
    rw [hnq] at this
    exact absurd this (by decide)
  induction k with
  | zero =>
    intro conn wr h
    simp [serveLoop] at h
  | succ k ih =>
    intro conn wr h
    have hs := serveBody_shape env conn wr
    simp only [serveLoop] at h ⊢
    rcases hB : serveBody env conn wr with ⟨evs, nx⟩
    rw [hB] at hs h
    cases nx with
    | again c w =>
      simp only at h hs ⊢
      have hq : ∀ e ∈ evs, e.quiet = true := hs
      rcases List.mem_append.1 h with h1 | h1
      · exact absurd h1 (notin evs hq)
      · obtain ⟨pre, hp, hpq⟩ := ih c w h1
        refine ⟨evs ++ pre, by rw [hp, List.append_assoc], ?_⟩
        intro e he
        rcases List.mem_append.1 he with h2 | h2
        · exact hq e h2
        · exact hpq e h2
    | brk =>
      simp only at h hs ⊢
      rcases hs with hq | ⟨pre, r1, rfl, hq⟩
      · rcases List.mem_append.1 h with h1 | h1
        · exact absurd h1 (notin evs hq)
        · simp at h1
      · have hr : r = r1 := by
          rcases List.mem_append.1 h with h1 | h1
          · rcases List.mem_append.1 h1 with h2 | h2
            · exact absurd h2 (notin pre hq)
            · simpa using h2
          · simp at h1
        subst hr
        exact ⟨pre, by simp, hq⟩
    | ret =>
      simp only at h hs ⊢
      obtain ⟨pre, rfl, hq⟩ := hs
      rcases List.mem_append.1 h with h1 | h1
      · exact absurd h1 (notin pre hq)
      · simp at h1
    | undef =>
      simp only at h hs ⊢
      have hq : ∀ e ∈ evs, e.quiet = true := hs
      rcases List.mem_append.1 h with h1 | h1
      · exact absurd h1 (notin evs hq)
      · simp at h1

/-- Claim C15: on every run of `serve` in which the error reply `"-ERR\r\n"`
is written, that `writen` is followed by the close of the connection and by
nothing else, and before it the connection was never closed and no error
reply was written: no read or write follows the reply, there is one error
reply and one close. -/
theorem serve_error_reply_last (env : Env) (conn : Conn) (wr : WrOracle) (r : Int)
    (h : Event.writen ERR r ∈ serve env conn wr) :
    ∃ pre, serve env conn wr = pre ++ [.writen ERR r, .close] ∧
      ∀ e ∈ pre, e.quiet = true :=
  serveLoop_error_reply_last env r _ conn wr h

/-- Witness for C15: a served file followed by a malformed command. -/
theorem serve_error_reply_last_witness :
    ∃ pre, serve envA [.seg (GET_ ++ [97] ++ CRLF), .seg [80, 85, 84, 32]] [] =
        pre ++ [.writen ERR 6, .close] ∧ ∀ e ∈ pre, e.quiet = true :=
  serve_error_reply_last envA [.seg (GET_ ++ [97] ++ CRLF), .seg [80, 85, 84, 32]] [] 6
    (by decide)

theorem getCommand_calm (name : List Byte) (r : Int) :
    (MEvent.writen (getCommand name) r).calm = true := by
  simp [MEvent.calm, getCommand, GET_, QUIT]

theorem ClientShape_cons (e : MEvent) (t : List MEvent) (he : e.calm = true)
    (h : ClientShape t) : ClientShape (e :: t) := by
  obtain ⟨pre, tl, rfl, hp, ht⟩ := h
  refine ⟨e :: pre, tl, rfl, ?_, ht⟩
  intro x hx
  rcases List.mem_cons.1 hx with rfl | hx
  · exact he
  · exact hp x hx

theorem ClientShape_prepend (l t : List MEvent) (hl : ∀ e ∈ l, e.calm = true)
    (h : ClientShape t) : ClientShape (l ++ t) := by
  induction l with
  | nil => exact h
  | cons e l ih =>
    exact ClientShape_cons e (l ++ t) (hl e (List.mem_cons_self _ _))
      (ih (fun x hx => hl x (List.mem_cons_of_mem _ hx)))

theorem ClientShape_of_tail (tl : List MEvent)
    (h : (∃ r, tl = [.writen (QUIT ++ CRLF) r, .close, .exit 0]) ∨ tl = [.close, .exit (-1)] ∨
      tl = [.fatal] ∨ tl = [.undefined] ∨ tl = [.nofuel]) : ClientShape tl :=
  ⟨[], tl, rfl, fun _ h => by simp at h, h⟩

theorem file_events_calm (l : List CEvent) : ∀ e ∈ l.map MEvent.file, e.calm = true := by
  intro e he
  obtain ⟨x, _, rfl⟩ := List.mem_map.1 he
  rfl

theorem clientLoop_shape (env : ClientEnv) (files : List (List Byte)) :
    ∀ (conn : Conn) (wr : WrOracle) (d t : Nat), ClientShape (clientLoop env files conn wr d t) := by
  induction files with
  | nil =>
    intro conn wr d t
    exact ClientShape_of_tail _ (Or.inl ⟨_, rfl⟩)
  | cons name rest ih =>
    intro conn wr d t
    have hw := getCommand_calm name
    have hfatal : ClientShape [MEvent.fatal] := ClientShape_of_tail _ (by simp)
    have hundef : ClientShape [MEvent.undefined] := ClientShape_of_tail _ (by simp)
    have hfuel : ClientShape [MEvent.nofuel] := ClientShape_of_tail _ (by simp)
    have habort : ClientShape [MEvent.close, MEvent.exit (-1)] := ClientShape_of_tail _ (by simp)
    rw [clientLoop]
    repeat' (first | split_ifs | split)
    all_goals first
      | exact hundef
      | (repeat' first
          | exact hfatal
          | exact hundef
          | exact hfuel
          | exact habort
          | exact ih _ _ _ _
          | exact hw _
          | rfl
          | apply file_events_calm
          | apply ClientShape_cons
          | apply ClientShape_prepend)

/-- Claim C16 (amended): on normal completion (`exit(0)`) the client writes the
6 bytes `"QUIT\r\n"`, then closes the connection, once, and exits; on an abort
(`exit(-1)`, after an `"-ERR\r\n"` reply or an invalid reply) it closes the
connection, once, and exits without having written `"QUIT\r\n"`. -/
theorem client_quit_and_close (env : ClientEnv) (files : List (List Byte)) (conn : Conn)
    (wr : WrOracle) :
    (MEvent.exit 0 ∈ client1_main env files conn wr →
        ∃ pre r, client1_main env files conn wr =
            pre ++ [.writen (QUIT ++ CRLF) r, .close, .exit 0] ∧
          ∀ e ∈ pre, e.calm = true) ∧
      (MEvent.exit (-1) ∈ client1_main env files conn wr →
        ∃ pre, client1_main env files conn wr = pre ++ [.close, .exit (-1)] ∧
          ∀ e ∈ pre, e.calm = true) := by
  have hs : ClientShape (client1_main env files conn wr) := by
    unfold client1_main
    split_ifs
    · exact ClientShape_of_tail _ (by simp)
    · exact clientLoop_shape env files conn wr _ _
  obtain ⟨pre, tl, hT, hp, ht⟩ := hs
  have notin : ∀ s, MEvent.exit s ∉ pre := fun s hmem => by
    have := hp _ hmem
    simp [MEvent.calm] at this
  rw [hT]
  refine ⟨fun h => ?_, fun h => ?_⟩
  · rcases List.mem_append.1 h with h1 | h1
    · exact absurd h1 (notin 0)
    · rcases ht with ⟨r, rfl⟩ | rfl | rfl | rfl | rfl
      · exact ⟨pre, r, rfl, hp⟩
      all_goals simp at h1
  · rcases List.mem_append.1 h with h1 | h1
    · exact absurd h1 (notin (-1))
    · rcases ht with ⟨r, rfl⟩ | rfl | rfl | rfl | rfl
      · simp at h1
      · exact ⟨pre, rfl, hp⟩
      all_goals simp at h1

/-- Witness for C16 (amended): one file of 3 bytes received, then `QUIT`. -/
theorem client_quit_and_close_witness :
    ∃ pre r, client1_main envC [[97]]
          [.seg (OK_ ++ [0, 0, 0, 3, 1, 2, 3, 4] ++ [7, 8, 9])] [] =
        pre ++ [.writen (QUIT ++ CRLF) r, .close, .exit 0] ∧
      ∀ e ∈ pre, e.calm = true :=
  (client_quit_and_close envC [[97]] [.seg (OK_ ++ [0, 0, 0, 3, 1, 2, 3, 4] ++ [7, 8, 9])]
    []).1 (by decide)

/-- Counterexample to C16 as stated: after the reply `"-ERR\r\n"` the client
closes the connection and exits; it writes no `"QUIT\r\n"`. -/
theorem client_abort_without_quit :
    client1_main envC [[97], [98]] [.seg ERR] [] =
        [.writen (GET_ ++ [97] ++ CRLF) 7, .readn 5 5, .readn 1 1, .close, .exit (-1)] ∧
      QUIT ++ CRLF ∉ mWritten (client1_main envC [[97], [98]] [.seg ERR] []) := by
  decide

theorem Readn_full (conn : Conn) (n : Nat) (h : n ≤ conn.avail.length) :
    ∃ r, Readn conn n = some r ∧ r.ret = (n : Int) ∧ r.buf = conn.avail.take n ∧
      r.conn.avail = conn.avail.drop n := by
  obtain ⟨h1, _, _⟩ := readnLoop_spec n conn n [] (Nat.le_refl n)
  obtain ⟨a, b, c, _⟩ := h1 h
  refine ⟨readn conn n, ?_, a, by simpa using b, c⟩
  have : ¬ (readn conn n).ret < 0 := by
    rw [show (readn conn n).ret = (n : Int) from a]
    omega
  simp [Readn, this]

theorem mWritten_append (a b : List MEvent) : mWritten (a ++ b) = mWritten a ++ mWritten b := by
  induction a with
  | nil => rfl
  | cons x a ih => cases x <;> simp [mWritten, ih]

theorem mWritten_file (l : List CEvent) : mWritten (l.map MEvent.file) = [] := by
  induction l with
  | nil => rfl
  | cons x l ih => simpa [mWritten] using ih

theorem InArgumentOrder_none (name : List Byte) (rest : List (List Byte)) (t : List MEvent)
    (h : mWritten t = []) : InArgumentOrder (name :: rest) t :=
  Or.inl ⟨0, Nat.zero_le _, by simpa using h⟩

theorem InArgumentOrder_one (name : List Byte) (rest : List (List Byte)) (t : List MEvent)
    (h : mWritten t = [getCommand name]) : InArgumentOrder (name :: rest) t :=
  Or.inl ⟨1, by simp, by simpa using h⟩

theorem InArgumentOrder_step (name : List Byte) (rest : List (List Byte)) (t t1 : List MEvent)
    (h : mWritten t = getCommand name :: mWritten t1) (h1 : InArgumentOrder rest t1) :
    InArgumentOrder (name :: rest) t := by
  rcases h1 with ⟨k, hk, e⟩ | e
  · exact Or.inl ⟨k + 1, by simpa using hk, by rw [h, e]; simp⟩
  · exact Or.inr (by rw [h, e]; simp)

theorem InArgumentOrder_append (name : List Byte) (rest : List (List Byte))
    (pre t1 : List MEvent) (h : mWritten pre = [getCommand name])
    (h1 : InArgumentOrder rest t1) : InArgumentOrder (name :: rest) (pre ++ t1) :=
  InArgumentOrder_step name rest (pre ++ t1) t1 (by rw [mWritten_append, h]; rfl) h1

theorem clientLoop_order (env : ClientEnv) (files : List (List Byte)) :
    ∀ (conn : Conn) (wr : WrOracle) (d t : Nat),
      InArgumentOrder files (clientLoop env files conn wr d t) := by
  induction files with
  | nil =>
    intro conn wr d t
    exact Or.inr (by simp [clientLoop, mWritten])
  | cons name rest ih =>
    intro conn wr d t
    rw [clientLoop]
    repeat' (first | split_ifs | split)
    all_goals first
      | (refine InArgumentOrder_none _ _ _ ?_
         rfl)
      | (refine InArgumentOrder_one _ _ _ ?_
         rfl)
      | (refine InArgumentOrder_one _ _ _ ?_
         rw [mWritten_append, mWritten_append, mWritten_file]
         rfl)
      | (refine InArgumentOrder_append _ _ _ _ ?_ (ih _ _ _ _)
         rfl)
      | (refine InArgumentOrder_append _ _ _ _ ?_ (ih _ _ _ _)
         rw [mWritten_append, mWritten_file]
         rfl)

/-- Claim C17: when the stream supplies the 6 bytes `"-ERR\r\n"` as the reply
to a GET, the client closes the connection and exits with status -1 without
writing anything more, whatever filenames remain; and in every run the
commands written are those of the filenames in argument order, each written
only after the reply to the previous one was dealt with. -/
theorem client_error_reply (env : ClientEnv) (name : List Byte) (rest : List (List Byte))
    (conn : Conn) (wr : WrOracle) (tail : List Byte) (hlen : (cstr name).length ≤ 2041)
    (hav : conn.avail = ERR ++ tail) :
    client1_main env (name :: rest) conn wr =
        [.writen (getCommand name) (writen wr (getCommand name)).ret, .readn 5 5, .readn 1 1,
          .close, .exit (-1)] ∧
      mWritten (client1_main env (name :: rest) conn wr) = [getCommand name] ∧
      ∀ files c w, InArgumentOrder files (client1_main env files c w) := by
  have hmain : client1_main env (name :: rest) conn wr =
      [.writen (getCommand name) (writen wr (getCommand name)).ret, .readn 5 5, .readn 1 1,
        .close, .exit (-1)] := by
    obtain ⟨r1, e1, ret1, buf1, av1⟩ := Readn_full conn 5 (by rw [hav]; simp [ERR])
    rw [hav] at buf1 av1
    have buf1' : r1.buf = ERR5 := by simpa [ERR, ERR5] using buf1
    have av1' : r1.conn.avail = 10 :: tail := by simpa [ERR] using av1
    obtain ⟨r2, e2, ret2, buf2, _⟩ := Readn_full r1.conn 1 (by rw [av1']; simp)
    rw [av1'] at buf2
    have buf2' : r2.buf = [10] := by simpa using buf2
    have hfit : ¬ (MAXBUFLEN < (getCommand name).length + 1) := by
      simp [getCommand, GET_, CRLF, MAXBUFLEN]
      omega
    have hok : strncmp_eq 5 (store ERR5 (getCommand name)) OK_ = false := by
      simp [strncmp_eq, store, ERR5, OK_]
    have herr : strncmp_eq 5 (store ERR5 (getCommand name)) ERR5 = true := by
      simp [strncmp_eq, store, ERR5]
    have hc : (store [10] [env.c0]).headD 0 = 10 := rfl
    simp only [client1_main, clientLoop, hfit, e1, buf1', hok, herr, e2, buf2', hc, ret1, ret2,
      if_true, if_false, Bool.false_eq_true, reduceCtorEq]
    rfl
  refine ⟨hmain, by rw [hmain]; rfl, fun files c w => ?_⟩
  unfold client1_main
  split_ifs with hf
  · subst hf
    exact Or.inl ⟨0, Nat.le_refl _, rfl⟩
  · exact clientLoop_order env files c w _ _

/-- Witness for C17: two filenames, the first answered with `"-ERR\r\n"`. -/
theorem client_error_reply_witness :
    client1_main envC [[97], [98]] [.seg [45, 69, 82], .seg [82, 13, 10]] [] =
        [.writen (getCommand [97]) (writen [] (getCommand [97])).ret, .readn 5 5, .readn 1 1,
          .close, .exit (-1)] ∧
      mWritten (client1_main envC [[97], [98]] [.seg [45, 69, 82], .seg [82, 13, 10]] []) =
        [getCommand [97]] ∧
      ∀ files c w, InArgumentOrder files (client1_main envC files c w) :=
  client_error_reply envC [97] [[98]] [.seg [45, 69, 82], .seg [82, 13, 10]] [] []
    (by decide) (by decide)

/-- Claim C18 (failing input): for the reply `"-ERR\r"` followed by `X`, the
client neither aborts nor reports anything: with one filename it writes
`"QUIT\r\n"`, closes and exits with status 0 although no file was received;
with two it goes on to send the second GET. -/
theorem client_bad_sixth_byte :
    client1_main envC [[97]] [.seg (ERR5 ++ [88])] [] =
        [.writen (GET_ ++ [97] ++ CRLF) 7, .readn 5 5, .readn 1 1,
          .writen (QUIT ++ CRLF) 6, .close, .exit 0] ∧
      client1_main envC [[97], [98]] [.seg (ERR5 ++ [88]), .seg ERR] [] =
        [.writen (GET_ ++ [97] ++ CRLF) 7, .readn 5 5, .readn 1 1,
          .writen (GET_ ++ [98] ++ CRLF) 7, .readn 5 5, .readn 1 1, .close, .exit (-1)] := by
  decide

theorem ofMem32_be32 (le : Bool) (x : Nat) (h : x < 2 ^ 32) :
    ntohl le (ofMem32 le (be32 x)) = x := by
  have hx : x < 4294967296 := h
  cases le
  · have e : ofMem32 false (be32 x) = x := by
      simp only [ofMem32, be32, Bool.false_eq_true, if_false, List.getD_cons_zero,
        List.getD_cons_succ, show (2 : Nat) ^ 24 = 16777216 from rfl,
        show (2 : Nat) ^ 16 = 65536 from rfl, show (2 : Nat) ^ 8 = 256 from rfl]
      omega
    rw [e]
    simp only [ntohl, Bool.false_eq_true, if_false]
    exact Nat.mod_eq_of_lt h
  · have e : ofMem32 true (be32 x) = bswap32 x := by
      simp only [ofMem32, be32, bswap32, if_true, List.getD_cons_zero,
        List.getD_cons_succ, show (2 : Nat) ^ 24 = 16777216 from rfl,
        show (2 : Nat) ^ 16 = 65536 from rfl, show (2 : Nat) ^ 8 = 256 from rfl]
      omega
    rw [e]
    simpa [ntohl] using bswap32_bswap32 x h

/-- Claim C19: for every 32-bit value `x`, on a host of either byte order,
`htonl(ntohl(x)) = x` and `ntohl(htonl(x)) = x`; hence the size `serve`
compares the copied byte count against is the size it encoded, and the value a
client of either byte order decodes from the four bytes the server wrote is
the value the server encoded. -/
theorem byte_order_round_trip (server client : Bool) (x : Nat) (h : x < 2 ^ 32) :
    htonl server (ntohl server x) = x ∧ ntohl server (htonl server x) = x ∧
      ntohl client (ofMem32 client (memBytes32 server (htonl server x))) = x := by
  refine ⟨ntohl_htonl server x h, ntohl_htonl server x h, ?_⟩
  rw [memBytes32_htonl server x h]
  exact ofMem32_be32 client x h

/-- Witness for C19: the timestamp 1700000000 from a little-endian server to a
big-endian client. -/
theorem byte_order_round_trip_witness :
    htonl true (ntohl true 1700000000) = 1700000000 ∧
      ntohl true (htonl true 1700000000) = 1700000000 ∧
      ntohl false (ofMem32 false (memBytes32 true (htonl true 1700000000))) = 1700000000 :=
  byte_order_round_trip true false 1700000000 (by decide)

theorem recvLoop_fuel (dim : Nat) (k : Nat) :
    ∀ (remain : Nat) (conn : Conn), conn.size < k →
      (recvLoop dim k remain conn).out ≠ .nofuel := by
  induction k with
  | zero => intro remain conn h; exact absurd h (Nat.not_lt_zero _)
  | succ k ih =>
    intro remain conn hsize
    obtain ⟨_, hsome⟩ := Read_spec MAXBUFLEN conn
    rcases hR : Read MAXBUFLEN conn with ⟨o, c, evs⟩
    rw [hR] at hsome
    cases o with
    | none => simp [recvLoop, hR]
    | some bs =>
      obtain ⟨_, _, hb3⟩ := hsome bs rfl
      simp only at hb3
      simp only [recvLoop, hR]
      split_ifs with hpos hz hfin
      · simp
      · simp
      · have hne : bs ≠ [] := fun h => by simp [h] at hpos
        exact ih _ c (by have := hb3 hne; omega)
      · simp

theorem Recvfile_fuel (canOpen : List Byte → Bool) (conn : Conn) (filename : List Byte)
    (dim : Nat) : (Recvfile canOpen conn filename dim).out ≠ .nofuel := by
  have h1 : (recvfile canOpen conn filename dim).out ≠ .nofuel := by
    unfold recvfile
    split_ifs
    · exact recvLoop_fuel dim _ dim conn (Nat.lt_succ_self _)
    · simp
  unfold Recvfile
  split
  · split_ifs
    · simp
    · exact h1
  · exact h1

theorem clientLoop_fuel (env : ClientEnv) (files : List (List Byte)) :
    ∀ (conn : Conn) (wr : WrOracle) (d t : Nat),
      MEvent.nofuel ∉ clientLoop env files conn wr d t := by
  induction files with
  | nil => intro conn wr d t; simp [clientLoop]
  | cons name rest ih =>
    intro conn wr d t
    have hfile : ∀ l : List CEvent, MEvent.nofuel ∉ l.map MEvent.file := by
      intro l h
      obtain ⟨x, _, hx⟩ := List.mem_map.1 h
      exact absurd hx (by simp)
    rw [clientLoop]
    repeat' (first | split_ifs | split)
    all_goals first
      | (simp only [List.mem_append, List.mem_cons, List.mem_singleton, List.not_mem_nil,
           or_false, not_or, reduceCtorEq, not_false_eq_true, true_and, and_true]
         done)
      | (simp only [List.mem_append, List.mem_cons, List.mem_singleton, List.not_mem_nil,
           or_false, not_or, reduceCtorEq, not_false_eq_true, true_and, and_true, false_or]
         first
           | exact ih _ _ _ _
           | exact hfile _
           | exact ⟨hfile _, ih _ _ _ _⟩)
      | (exfalso
         rename_i hret o hout
         exact Recvfile_fuel _ _ _ _ hout)

theorem client1_main_fuel (env : ClientEnv) (files : List (List Byte)) (conn : Conn)
    (wr : WrOracle) : MEvent.nofuel ∉ client1_main env files conn wr := by
  unfold client1_main
  split_ifs
  · simp
  · exact clientLoop_fuel env files conn wr _ _


theorem strrchr_spec (c : Byte) (l : List Byte) :
    (strrchr c l = none → c ∉ l) ∧
      ∀ r, strrchr c l = some r → ∃ dir t, l = dir ++ c :: t ∧ r = c :: t ∧ c ∉ t := by
  induction l with
  | nil => exact ⟨fun _ h => by simp at h, fun r h => by simp [strrchr] at h⟩
  | cons x l ih =>
    obtain ⟨ih1, ih2⟩ := ih
    cases hs : strrchr c l with
    | some r0 =>
      obtain ⟨dir, t, e1, e2, e3⟩ := ih2 r0 hs
      refine ⟨fun h => by simp [strrchr, hs] at h, fun r h => ?_⟩
      simp only [strrchr, hs, Option.some.injEq] at h
      subst h
      exact ⟨x :: dir, t, by rw [e1]; rfl, e2, e3⟩
    | none =>
      have hn := ih1 hs
      by_cases hx : x = c
      · subst hx
        refine ⟨fun h => by simp [strrchr, hs] at h, fun r h => ?_⟩
        simp only [strrchr, hs, if_true, Option.some.injEq] at h
        exact ⟨[], l, rfl, h.symm, hn⟩
      · refine ⟨fun _ h => ?_, fun r h => by simp [strrchr, hs, hx] at h⟩
        rcases List.mem_cons.1 h with h1 | h1
        · exact hx h1.symm
        · exact hn h1

theorem strstr_singleton (c : Byte) (l : List Byte) : strstr l [c] = true ↔ c ∈ l := by
  induction l with
  | nil => simp [strstr]
  | cons x l ih =>
    simp only [strstr, Bool.or_eq_true, ih, List.mem_cons]
    constructor
    · rintro (h | h)
      · left
        simp only [List.isPrefixOf, Bool.and_true, beq_iff_eq] at h
        exact h
      · exact Or.inr h
    · rintro (h | h)
      · left
        simp only [List.isPrefixOf, Bool.and_true, beq_iff_eq]
        exact h
      · exact Or.inr h

/-- Claim C22: for every path `p`, the name `recvfile` opens contains no `'/'`,
`p` is a directory part (empty, or ending in `'/'`) followed by that name, the
name is `p` itself when `p` contains no `'/'`, and it is the name handed to
`fopen`. -/
theorem recvfile_opens_basename (p : List Byte) :
    SLASH ∉ localName p ∧
      (∃ dir, p = dir ++ localName p ∧ (dir = [] ∨ dir.getLast? = some SLASH)) ∧
      (SLASH ∉ p → localName p = p) ∧
      ∀ (canOpen : List Byte → Bool) (conn : Conn) (dim : Nat),
        (recvfile canOpen conn p dim).events.head? =
          some (.fopen (localName p) (canOpen (localName p))) := by
  obtain ⟨h1, h2⟩ := strrchr_spec SLASH p
  have hname : SLASH ∉ localName p ∧
      (∃ dir, p = dir ++ localName p ∧ (dir = [] ∨ dir.getLast? = some SLASH)) ∧
      (SLASH ∉ p → localName p = p) := by
    by_cases hin : SLASH ∈ p
    · have hs : strstr p [SLASH] = true := (strstr_singleton SLASH p).2 hin
      cases hr : strrchr SLASH p with
      | none => exact absurd hin (h1 hr)
      | some r =>
        obtain ⟨dir, t, e1, e2, e3⟩ := h2 r hr
        have hl : localName p = t := by simp [localName, hs, hr, e2]
        rw [hl]
        refine ⟨e3, ⟨dir ++ [SLASH], by rw [e1]; simp, Or.inr (by simp)⟩, fun h => absurd hin h⟩
    · have hs : strstr p [SLASH] = false := by
        cases e : strstr p [SLASH]
        · rfl
        · exact absurd ((strstr_singleton SLASH p).1 e) hin
      have hl : localName p = p := by simp [localName, hs]
      rw [hl]
      exact ⟨hin, ⟨[], rfl, Or.inl rfl⟩, fun _ => rfl⟩
  refine ⟨hname.1, hname.2.1, hname.2.2, fun canOpen conn dim => ?_⟩
  unfold recvfile
  split_ifs with h
  · simp [h]
  · simp [h]

/-- Witness for C22: the path `d/e/a` is opened as `a`, the path `a` as `a`. -/
theorem recvfile_opens_basename_witness :
    localName [100, 47, 101, 47, 97] = [97] ∧ localName [97] = [97] :=
  ⟨by decide, (recvfile_opens_basename [97]).2.2.1 (by decide)⟩

theorem strstrAt_none (hay needle : List Byte) (h : strstr hay needle = false) :
    strstrAt hay needle = none := by
  induction hay with
  | nil =>
    simp only [strstr] at h
    simp [strstrAt, h]
  | cons c hay ih =>
    simp only [strstr, Bool.or_eq_false_iff] at h
    simp [strstrAt, h.1, ih h.2]

/-- Claim C27: for every host string `"::ffff:" ++ v4`, whatever follows its
terminating NUL in the array, the string `host` points to after lines 31-37
of `serve` is exactly `v4`; a host string that does not contain `"::ffff:"`
is unchanged. -/
theorem translateHost_mapped (junk : List Byte) :
    (∀ v4 : List Byte, 0 ∉ v4 → translateHost (MAPPED ++ v4 ++ 0 :: junk) = v4) ∧
      (∀ host : List Byte, 0 ∉ host → ¬ MAPPED <:+: host →
        translateHost (host ++ 0 :: junk) = host) := by
  refine ⟨fun v4 h0 => ?_, fun host h0 hn => ?_⟩
  · have hz : (0 : Byte) ∉ MAPPED ++ v4 := by
      intro h
      rcases List.mem_append.1 h with h1 | h1
      · exact absurd h1 (by decide)
      · exact h0 h1
    have hc : cstr (MAPPED ++ v4 ++ 0 :: junk) = MAPPED ++ v4 := cstr_append_nul _ hz junk
    have hat : strstrAt (MAPPED ++ v4) MAPPED = some 0 := by
      simp [MAPPED, strstrAt, List.isPrefixOf]
    unfold translateHost
    rw [hc, hat]
    have hset : (MAPPED ++ v4 ++ 0 :: junk).set 0 0 =
        0 :: 58 :: 102 :: 102 :: 102 :: 102 :: 58 :: (v4 ++ 0 :: junk) := by
      simp [MAPPED]
    simp only [hset, List.drop_zero, List.take_zero, List.nil_append, Nat.zero_add]
    have hc0 : cstr (0 :: 58 :: 102 :: 102 :: 102 :: 102 :: 58 :: (v4 ++ 0 :: junk)) = [] := by
      simp [cstr]
    rw [hc0]
    simp only [List.length_nil, List.replicate_zero, List.nil_append, List.drop_zero]
    exact cstr_append_nul v4 h0 junk
  · have hc : cstr (host ++ 0 :: junk) = host := cstr_append_nul host h0 junk
    have hs : strstr host MAPPED = false := by
      cases e : strstr host MAPPED
      · rfl
      · exact absurd ((strstr_iff host MAPPED).1 e) hn
    unfold translateHost
    rw [hc, strstrAt_none host MAPPED hs]

/-- Witness for C27: the peer `::ffff:1.2` becomes `1.2`; the peer `::1` stays. -/
theorem translateHost_mapped_witness :
    translateHost (MAPPED ++ [49, 46, 50] ++ 0 :: [7, 7]) = [49, 46, 50] ∧
      translateHost ([58, 58, 49] ++ 0 :: [7, 7]) = [58, 58, 49] :=
  ⟨(translateHost_mapped [7, 7]).1 [49, 46, 50] (by decide),
    (translateHost_mapped [7, 7]).2 [58, 58, 49] (by decide)
      (fun h => absurd ((strstr_iff [58, 58, 49] MAPPED).2 h) (by decide))⟩

theorem readline_crlf (c1 : Conn) (f tail : List Byte) (hc : c1.clean = true)
    (hb : c1.bytes = f ++ CRLF ++ tail) (hLF : 10 ∉ f) (hlen : f.length ≤ 61) :
    ∃ c2, c2.clean = true ∧ c2.bytes = tail ∧
      readline_unbuffered c1 BUFFLEN =
        ⟨((f.length + 2 : Nat) : Int), f ++ [13, 10, 0], c2, recvEach (f ++ CRLF)⟩ := by
  have hl : (10 : Byte) ∉ f ++ [13] := by
    simp only [List.mem_append, List.mem_singleton, not_or]
    exact ⟨hLF, by decide⟩
  obtain ⟨c2, g1, g2, g3⟩ := readlineLoop_line (f ++ [13]) 63 1 c1 [] [] tail hc
    (by simp [hb, CRLF]) hl (by simp; omega)
  refine ⟨c2, g1, g2, ?_⟩
  rw [readline_unbuffered, show BUFFLEN - 1 = 63 from rfl, g3]
  simp [CRLF, Nat.add_comm, Nat.add_left_comm]

theorem extractFilename_crlf (c1 : Conn) (f tail : List Byte) (hc : c1.clean = true)
    (hb : c1.bytes = f ++ CRLF ++ tail) (hLF : 10 ∉ f) (h0 : 0 ∉ f) (hlen : f.length ≤ 61) :
    extractFilename c1 = if FILENAMELEN < f.length + 1 then none else some f := by
  obtain ⟨c2, _, _, hline⟩ := readline_crlf c1 f tail hc hb hLF hlen
  have hbuf : store (f ++ [13, 10, 0]) zeroBuf =
      f ++ 13 :: 10 :: (0 :: zeroBuf.drop (f.length + 3)) := by
    simp [store]
  unfold extractFilename
  simp only [hline, hbuf]
  have h2 : ¬ (((f.length + 2 : Nat) : Int) < 2) := by omega
  simp only [h2, if_false, Int.toNat_ofNat, Nat.add_sub_cancel,
    show f.length + 2 - 1 = f.length + 1 from rfl, getD_append_cons, getD_append_cons_succ,
    set_append_cons, and_self, if_true, cstr_append_nul f h0]

theorem serveGet_crlf (env : Env) (c1 : Conn) (wr : WrOracle) (f tail : List Byte)
    (hc : c1.clean = true) (hb : c1.bytes = f ++ CRLF ++ tail) (hLF : 10 ∉ f) (h0 : 0 ∉ f)
    (hlen : f.length ≤ 61) (hlong : 30 ≤ f.length) :
    serveGet env c1 wr = (recvEach (f ++ CRLF), .undef) := by
  obtain ⟨c2, _, _, hline⟩ := readline_crlf c1 f tail hc hb hLF hlen
  have hbuf : store (f ++ [13, 10, 0]) zeroBuf =
      f ++ 13 :: 10 :: (0 :: zeroBuf.drop (f.length + 3)) := by
    simp [store]
  unfold serveGet
  simp only [hline, hbuf]
  have h1 : ¬ (((f.length + 2 : Nat) : Int) < 0) := by omega
  have h2 : ¬ (((f.length + 2 : Nat) : Int) < 2) := by omega
  simp only [h1, h2, if_false, Int.toNat_ofNat, Nat.add_sub_cancel,
    show f.length + 2 - 1 = f.length + 1 from rfl, getD_append_cons, getD_append_cons_succ,
    set_append_cons, and_self, if_true, cstr_append_nul f h0]
  have h3 : FILENAMELEN < f.length + 1 := by simp [FILENAMELEN]; omega
  simp only [h3, if_true]

theorem serveGet_of_extract (env : Env) (conn : Conn) (wr : WrOracle) (fn : List Byte)
    (h : extractFilename conn = some fn) :
    serveGet env conn wr =
      if strstr fn DOTDOTSLASH then
        ((readline_unbuffered conn BUFFLEN).events ++ (errReply wr).1, .brk)
      else if env.access fn then
        ((readline_unbuffered conn BUFFLEN).events ++
            (serveFile env fn (readline_unbuffered conn BUFFLEN).conn wr).1,
          (serveFile env fn (readline_unbuffered conn BUFFLEN).conn wr).2)
      else
        ((readline_unbuffered conn BUFFLEN).events ++ [Event.access fn false] ++
          (errReply wr).1, .brk) := by
  unfold extractFilename at h
  split_ifs at h with a b c
  simp only [Option.some.injEq] at h
  have a0 : ¬ (readline_unbuffered conn BUFFLEN).ret < 0 := by omega
  rw [h] at c
  unfold serveGet
  simp only [a0, a, b, c, if_false, if_true, and_self, h]

theorem readlineLoop_full (l : List Byte) :
    ∀ (k n : Nat) (conn : Conn) (acc : List Byte) (evs : List Event) (tail : List Byte),
      conn.clean = true → conn.bytes = l ++ tail → 10 ∉ l → l.length = k →
      ∃ c, c.clean = true ∧ c.bytes = tail ∧
        readlineLoop k n conn acc evs =
          ⟨((n + l.length : Nat) : Int), acc ++ l ++ [0], c, evs ++ recvEach l⟩ := by
  induction l with
  | nil =>
    intro k n conn acc evs tail hc hb _ hk
    simp only [List.length_nil] at hk
    subst hk
    exact ⟨conn, hc, by simpa using hb, by simp [readlineLoop, recvEach]⟩
  | cons b l ih =>
    intro k n conn acc evs tail hc hb hl hk
    simp only [List.length_cons] at hk
    subst hk
    obtain ⟨c, h1, h2, h3⟩ := sysRead_one conn hc b (l ++ tail) (by simpa using hb)
    have hb10 : ¬ b = 10 := fun e => hl (by simp [e])
    have hl2 : 10 ∉ l := fun e => hl (List.mem_cons_of_mem _ e)
    obtain ⟨c2, g1, g2, g3⟩ := ih l.length (n + 1) c (acc ++ [b])
      (evs ++ [.recv 1 (.ok [b])]) tail h2 h3 hl2 rfl
    refine ⟨c2, g1, g2, ?_⟩
    simp only [readlineLoop, h1, hb10, if_false, g3]
    simp [recvEach, Nat.add_assoc, Nat.add_comm 1]

/-- Claim C26: on a stream without read failures `readline_unbuffered(fd, buf,
maxlen)` consumes exactly the bytes up to and including the first LF when that
LF is among the first `maxlen - 1` bytes, and exactly `maxlen - 1` bytes when
none of these is LF; it stores the consumed bytes followed by a NUL, at most
`maxlen` bytes in all; and when `serve` loops after a GET line, the script it
reads the next command from starts right after that line. -/
theorem readline_unbuffered_exact (conn : Conn) (maxlen : Nat) (hc : conn.clean = true) :
    (∀ l tail, conn.bytes = l ++ 10 :: tail → 10 ∉ l → l.length + 1 ≤ maxlen - 1 →
        (readline_unbuffered conn maxlen).ret = ((l.length + 1 : Nat) : Int) ∧
          (readline_unbuffered conn maxlen).buf = l ++ [10, 0] ∧
          (readline_unbuffered conn maxlen).conn.clean = true ∧
          (readline_unbuffered conn maxlen).conn.bytes = tail ∧
          (readline_unbuffered conn maxlen).buf.length ≤ maxlen) ∧
      (∀ l tail, conn.bytes = l ++ tail → 10 ∉ l → l.length = maxlen - 1 → 1 ≤ maxlen →
        (readline_unbuffered conn maxlen).ret = (maxlen : Int) ∧
          (readline_unbuffered conn maxlen).buf = l ++ [0] ∧
          (readline_unbuffered conn maxlen).conn.clean = true ∧
          (readline_unbuffered conn maxlen).conn.bytes = tail ∧
          (readline_unbuffered conn maxlen).buf.length ≤ maxlen) ∧
      (∀ (env : Env) (conn0 : Conn) (wr : WrOracle) (f tail : List Byte) (c : Conn)
        (w : WrOracle), sysRead 4 conn0 = (.ok GET_, conn) →
        conn.bytes = f ++ CRLF ++ tail → 10 ∉ f → 0 ∉ f → f.length ≤ 29 →
        (serveBody env conn0 wr).2 = .again c w → c.clean = true ∧ c.bytes = tail) := by
  refine ⟨fun l tail hb hl hk => ?_, fun l tail hb hl hk hm => ?_,
    fun env conn0 wr f tail c w h4 hb hLF h0 hlen hag => ?_⟩
  · obtain ⟨c, g1, g2, g3⟩ := readlineLoop_line l (maxlen - 1) 1 conn [] [] tail hc hb hl
      (by omega)
    rw [readline_unbuffered, g3]
    refine ⟨by simp [Nat.add_comm], by simp, g1, g2, ?_⟩
    simp
    omega
  · obtain ⟨c, g1, g2, g3⟩ := readlineLoop_full l (maxlen - 1) 1 conn [] [] tail hc hb hl hk
    rw [readline_unbuffered, g3]
    refine ⟨?_, by simp, g1, g2, ?_⟩
    · simp only [hk]
      congr 1
      omega
    · simp
      omega
  · obtain ⟨c2, g1, g2, g⟩ := serveGet_line env conn wr f tail hc hb hLF h0 hlen
    rw [serveBody_get env conn0 conn wr h4] at hag
    simp only at hag
    rw [g] at hag
    split_ifs at hag with a b
    rw [serveFile_again env f c2 wr c w hag]
    exact ⟨g1, g2⟩

/-- Witness for C26: the line `ab\n` followed by `cd`, read with `maxlen` 64. -/
theorem readline_unbuffered_exact_witness :
    (readline_unbuffered [.seg [97], .seg [98, 10, 99, 100]] 64).ret = 3 ∧
      (readline_unbuffered [.seg [97], .seg [98, 10, 99, 100]] 64).buf = [97, 98, 10, 0] ∧
      (readline_unbuffered [.seg [97], .seg [98, 10, 99, 100]] 64).conn.clean = true ∧
      (readline_unbuffered [.seg [97], .seg [98, 10, 99, 100]] 64).conn.bytes = [99, 100] ∧
      (readline_unbuffered [.seg [97], .seg [98, 10, 99, 100]] 64).buf.length ≤ 64 :=
  (readline_unbuffered_exact [.seg [97], .seg [98, 10, 99, 100]] 64 (by decide)).1
    [97, 98] [99, 100] (by decide) (by decide) (by decide)

theorem cstr_of_no_nul (f : List Byte) (h0 : 0 ∉ f) : cstr f = f := by
  induction f with
  | nil => rfl
  | cons a f ih =>
    have ha : (a != 0) = true := by
      have : a ≠ 0 := fun e => h0 (by simp [e])
      simpa using this
    have hf : 0 ∉ f := fun e => h0 (List.mem_cons_of_mem _ e)
    have := ih hf
    simp only [cstr] at this ⊢
    simp [List.takeWhile, ha, this]

theorem client1_main_head (env : ClientEnv) (f : List Byte) (rest : List (List Byte))
    (conn : Conn) (wr : WrOracle) (hfit : ¬ MAXBUFLEN < (getCommand f).length + 1) :
    (client1_main env (f :: rest) conn wr).head? =
      some (.writen (getCommand f) (writen wr (getCommand f)).ret) := by
  simp only [client1_main, reduceCtorEq, if_false]
  rw [clientLoop]
  simp only [hfit, if_false]
  repeat' (first | split_ifs | split)
  all_goals rfl

/-- Claim C23: for every filename `f` of 0 to 29 bytes without NUL and LF, the
command the client builds and writes is `"GET " ++ f ++ "\r\n"`, of `6 + |f|`
bytes, and when these bytes reach `serve` with the 4-byte prefix read whole,
the filename `serve` copies out of the line is `f`. -/
theorem command_round_trip (f : List Byte) (hlen : f.length ≤ 29) (h0 : 0 ∉ f)
    (hLF : 10 ∉ f) :
    getCommand f = GET_ ++ f ++ CRLF ∧ (getCommand f).length = 6 + f.length ∧
      (∀ (env : ClientEnv) (rest : List (List Byte)) (conn : Conn) (wr : WrOracle),
        (client1_main env (f :: rest) conn wr).head? =
          some (.writen (GET_ ++ f ++ CRLF) (writen wr (GET_ ++ f ++ CRLF)).ret)) ∧
      (∀ (conn c1 : Conn) (tail : List Byte), conn.clean = true →
        conn.bytes = GET_ ++ f ++ CRLF ++ tail → sysRead 4 conn = (.ok GET_, c1) →
        extractFilename c1 = some f) := by
  have hcmd : getCommand f = GET_ ++ f ++ CRLF := by rw [getCommand, cstr_of_no_nul f h0]
  have hl : (getCommand f).length = 6 + f.length := by
    rw [hcmd]
    simp [GET_, CRLF]
    omega
  refine ⟨hcmd, hl, fun env rest conn wr => ?_, fun conn c1 tail hc hb h4 => ?_⟩
  · have := client1_main_head env f rest conn wr (by rw [hl]; simp [MAXBUFLEN]; omega)
    rw [hcmd] at this
    exact this
  · obtain ⟨bs, c, e1, e2, e3, _, _⟩ := sysRead_clean 4 conn hc
    rw [h4] at e1
    simp only [Prod.mk.injEq, ReadRes.ok.injEq] at e1
    obtain ⟨rfl, rfl⟩ := e1
    have hb1 : c1.bytes = f ++ CRLF ++ tail := by
      rw [hb] at e3
      simpa [List.append_assoc] using e3.symm
    rw [extractFilename_crlf c1 f tail e2 hb1 hLF h0 (by omega)]
    have : ¬ FILENAMELEN < f.length + 1 := by simp [FILENAMELEN]; omega
    simp [this]

/-- Witness for C23: the filename `a.txt`. -/
theorem command_round_trip_witness :
    getCommand [97, 46, 116, 120, 116] = GET_ ++ [97, 46, 116, 120, 116] ++ CRLF ∧
      extractFilename [.seg ([97, 46, 116] ++ [120, 116] ++ CRLF)] =
        some [97, 46, 116, 120, 116] :=
  ⟨(command_round_trip [97, 46, 116, 120, 116] (by decide) (by decide) (by decide)).1,
    (command_round_trip [97, 46, 116, 120, 116] (by decide) (by decide) (by decide)).2.2.2
      [.seg (GET_ ++ [97, 46, 116] ++ [120, 116] ++ CRLF)]
      [.seg ([97, 46, 116] ++ [120, 116] ++ CRLF)] [] (by decide) (by decide) (by decide)⟩

theorem serve_long_filename (env : Env) (conn c1 : Conn) (wr : WrOracle) (f tail : List Byte)
    (h4 : sysRead 4 conn = (.ok GET_, c1)) (hc : c1.clean = true)
    (hb : c1.bytes = f ++ CRLF ++ tail) (hLF : 10 ∉ f) (h0 : 0 ∉ f) (hlen : f.length ≤ 61)
    (hlong : 30 ≤ f.length) :
    serve env conn wr = .recv 4 (.ok GET_) :: recvEach (f ++ CRLF) ++ [.undefined] := by
  have hbody := serveBody_get env conn c1 wr h4
  rw [serveGet_crlf env c1 wr f tail hc hb hLF h0 hlen hlong] at hbody
  simp only [serve, serveLoop, hbody]

/-- Claim C21 (failing input): a GET line with a filename of 30 bytes is
accepted as well-formed, not rejected: no `"-ERR\r\n"` is written and `strcpy`
copies 31 bytes into the 30-byte array `filename`. -/
theorem serve_filename_overflow :
    extractFilename [.seg (List.replicate 30 97 ++ CRLF)] = none ∧
      serve envA [.seg (GET_ ++ List.replicate 30 97 ++ CRLF)] [] =
        .recv 4 (.ok GET_) :: recvEach (List.replicate 30 97 ++ CRLF) ++ [.undefined] ∧
      writtenBufs (serve envA [.seg (GET_ ++ List.replicate 30 97 ++ CRLF)] []) = [] := by
  decide

/-- Claim C24 (failing input): when the stream ends right after `"GET "`,
`readline_unbuffered` returns 0 and `serve` inspects `buf[-2]`; when the line
is the single byte LF it returns 1 and `serve` inspects `buf[-1]`: both
positions lie before the buffer. -/
theorem serve_short_line_index :
    (readline_unbuffered [] BUFFLEN).ret = 0 ∧
      (readline_unbuffered [] BUFFLEN).ret - 2 < 0 ∧
      serve envA [.seg GET_] [] = [.recv 4 (.ok GET_), .recv 1 (.ok []), .undefined] ∧
      (readline_unbuffered [.seg [10]] BUFFLEN).ret = 1 ∧
      (readline_unbuffered [.seg [10]] BUFFLEN).ret - 2 < 0 ∧
      serve envA [.seg (GET_ ++ [10])] [] =
        [.recv 4 (.ok GET_), .recv 1 (.ok [10]), .undefined] := by
  decide

/-- Claim C25 (failing input): the absolute path `/etc/passwd` contains no
`"../"`, passes the traversal check and is handed to `access`, `stat` and
`fopen`; the file is sent. -/
theorem serve_absolute_path :
    strstr [47, 101, 116, 99, 47, 112, 97, 115, 115, 119, 100] DOTDOTSLASH = false ∧
      Event.access [47, 101, 116, 99, 47, 112, 97, 115, 115, 119, 100] true ∈
        serve envRoot
          [.seg (GET_ ++ [47, 101, 116, 99, 47, 112, 97, 115, 115, 119, 100] ++ CRLF)] [] ∧
      Event.fopen [47, 101, 116, 99, 47, 112, 97, 115, 115, 119, 100] true ∈
        serve envRoot
          [.seg (GET_ ++ [47, 101, 116, 99, 47, 112, 97, 115, 115, 119, 100] ++ CRLF)] [] ∧
      Event.sendfile [47, 101, 116, 99, 47, 112, 97, 115, 115, 119, 100] 11 11 ∈
        serve envRoot
          [.seg (GET_ ++ [47, 101, 116, 99, 47, 112, 97, 115, 115, 119, 100] ++ CRLF)] [] := by
  decide

theorem readlineLoop_ret_le (k : Nat) :
    ∀ (n : Nat) (conn : Conn) (acc : List Byte) (evs : List Event),
      (readlineLoop k n conn acc evs).ret ≤ ((n + k : Nat) : Int) := by
  induction k with
  | zero => intro n conn acc evs; simp [readlineLoop]
  | succ k ih =>
    intro n conn acc evs
    rcases hR : sysRead 1 conn with ⟨r, c⟩
    cases r with
    | err e =>
      simp only [readlineLoop, hR]
      omega
    | ok bs =>
      cases bs with
      | nil =>
        simp only [readlineLoop, hR]
        split_ifs <;> simp only <;> omega
      | cons b t =>
        simp only [readlineLoop, hR]
        split_ifs
        · simp only
          omega
        · have := ih (n + 1) c (acc ++ [b]) (evs ++ [.recv 1 (.ok (b :: t))])
          omega

theorem readline_unbuffered_ret_le (conn : Conn) :
    (readline_unbuffered conn BUFFLEN).ret ≤ 64 := by
  have := readlineLoop_ret_le (BUFFLEN - 1) 1 conn [] []
  simpa [readline_unbuffered, BUFFLEN] using this

end DP1
